import Mathlib

/-! Task_ProContext: the two-robot simulator of `Task_First.go` and the currency
rates of `Task_Third.go`.

A shallow embedding of `Robot.step` and of the driver loop of `main` of
`Task_First.go`, together with the standard-library functions the interpreter
calls (`strings.HasPrefix`, `strings.Fields`, `strconv.Atoi`), and of the two pure
loops of `Task_Third.go`: the conversion loop of `fetchRatesForDate` and the
aggregation loop of its `main`.

Modelling conventions
* Go's `int` is taken to be 64 bits wide.  A position is an `Int` that `r.pos--`
  and `r.pos++` reduce into `[-2^63, 2^63)` (`wrapInt64`), as the machine does.
  Counters and the clock are plain `Int`: a counter is reset to 0 before it is
  used whenever it is not below the length of the program, and the clock stays
  below `maxSteps`, so their increments cannot leave the range of `int` (the
  length of a slice of strings is far below `2^63`).  `strconv.Atoi` reports a
  range error outside `[-2^63, 2^63)`.
* A Go `string` holding well-formed UTF-8 is a Lean `String`; the library
  functions work on its list of code points.
* `Robot.step` contains an unbounded `for` loop.  The embedding counts loop
  iterations with a `fuel` argument and has three outcomes: a normal return,
  the run-time panic of an out-of-range index, and running out of fuel.
* Printing is modelled by the list of records printed; `time.Sleep` is a pause
  for the reader of the output and has no counterpart.
* A `float64` is modelled by what the comparison operators can tell about it:
  `NaN` or an extended rational.  Operations whose result depends on rounding
  (`strconv.ParseFloat`, `+`, `/`, the conversion from `int`) are parameters, so
  what is proved holds whatever they compute.  HTTP and XML decoding are outside
  the embedding: the loops start from the decoded document.
-/

namespace TaskFirst

/-! ## Standard library -/

/-- Go `unicode.IsSpace`: the Latin-1 white space characters and the code points
of the Unicode `White_Space` property above Latin-1. -/
def IsSpace (c : Char) : Bool :=
  let n := c.toNat
  if n ≤ 0xFF then
    n = 0x09 || n = 0x0A || n = 0x0B || n = 0x0C || n = 0x0D || n = 0x20 || n = 0x85 || n = 0xA0
  else
    n = 0x1680 || (0x2000 ≤ n && n ≤ 0x200A) || n = 0x2028 || n = 0x2029 || n = 0x202F
      || n = 0x205F || n = 0x3000

/-- Worker of `Fields`: `cur` is the field being read, most recent character first. -/
def fieldsFrom : List Char → List Char → List (List Char)
  | [], cur => if cur.isEmpty then [] else [cur.reverse]
  | c :: cs, cur =>
    if IsSpace c then
      if cur.isEmpty then fieldsFrom cs [] else cur.reverse :: fieldsFrom cs []
    else fieldsFrom cs (c :: cur)

/-- Go `strings.Fields`: the maximal runs of non-space characters, in order. -/
def Fields (s : String) : List String :=
  (fieldsFrom s.data []).map String.mk

/-- Go `strings.HasPrefix`. -/
def HasPrefix (s pre : String) : Bool :=
  pre.data.isPrefixOf s.data

/-- The value of a string of decimal digits, most significant first
(the loop `n = n*10 + int(ch - '0')` of `strconv.Atoi`). -/
def digitsValue (ds : List Char) : Nat :=
  ds.foldl (fun n ch => n * 10 + (ch.toNat - 48)) 0

/-- A numeral without its optional leading sign (`s = s[1:]` in `strconv.Atoi`). -/
def unsigned : List Char → List Char
  | '-' :: t => t
  | '+' :: t => t
  | t => t

/-- Go `strconv.Atoi` on a 64-bit platform: an optional sign followed by at least
one ASCII digit, with a value that fits `int`; `none` stands for a non-nil
error (syntax or range). -/
def Atoi (s : String) : Option Int :=
  let neg : Bool := s.data.head? = some '-'
  let ds : List Char := unsigned s.data
  if ds.isEmpty then none
  else if ds.all Char.isDigit then
    let v : Int := if neg then -(digitsValue ds : Int) else (digitsValue ds : Int)
    if -(2 : Int) ^ 63 ≤ v ∧ v < (2 : Int) ^ 63 then some v else none
  else none

/-! ## The robot -/

/-- The robot of `Task_First.go`: current coordinate, program (one command per
line) and index of the current command (0-based). -/
structure Robot where
  pos : Int
  program : List String
  pc : Int
  deriving DecidableEq, Repr

/-- Outcome of running `Robot.step`. -/
inductive StepResult where
  /-- The method returned, leaving the robot in the given state. -/
  | done (r : Robot)
  /-- The indexing `r.program[r.pc]` was out of range (run-time panic). -/
  | indexPanic
  /-- The `for` loop was still running after the allowed number of iterations. -/
  | outOfFuel
  deriving DecidableEq, Repr

/-- Go slice indexing `program[i]` with an `int` index: `none` is the panic. -/
def index (program : List String) (i : Int) : Option String :=
  if i < 0 then none else program.get? i.toNat

/-- The guard `if r.pc >= len(r.program) { r.pc = 0 }`, used at the top of the
loop and after the timed command. -/
def wrap (r : Robot) : Robot :=
  if r.pc ≥ (r.program.length : Int) then { r with pc := 0 } else r

/-- The body of the `if strings.HasPrefix(cmd, "GOTO")` block up to its two
`continue` statements: the counter the loop continues with. -/
def gotoNext (r : Robot) (cmd : String) : Int :=
  match Fields cmd with
  | _ :: arg :: _ =>
    match Atoi arg with
    | some target =>
      if target ≥ 1 ∧ target ≤ (r.program.length : Int) then target - 1 else r.pc + 1
    | none => r.pc + 1
  | _ => r.pc + 1

/-- The value a 64-bit `int` takes when the exact result of `++` or `--` is `x`: `x`
reduced modulo `2^64` into `[-2^63, 2^63)`. -/
def wrapInt64 (x : Int) : Int :=
  (x + 2 ^ 63) % 2 ^ 64 - 2 ^ 63

/-- The `switch cmd` of `Robot.step` followed by the final wrap.  The position
is a 64-bit `int`: `r.pos--` and `r.pos++` wrap at the ends of its range. -/
def execTimed (r : Robot) (cmd : String) (black : Int) : Robot :=
  let r1 : Robot :=
    if cmd = "ML" then { r with pos := wrapInt64 (r.pos - 1), pc := r.pc + 1 }
    else if cmd = "MR" then { r with pos := wrapInt64 (r.pos + 1), pc := r.pc + 1 }
    else if cmd = "IF FLAG" then
      if r.pos = black then { r with pc := r.pc + 1 } else { r with pc := r.pc + 2 }
    else { r with pc := r.pc + 1 }
  wrap r1

/-- The method `Robot.step`: the `for` loop that resolves `GOTO` commands at no
cost, then the single timed command.  `fuel` bounds the number of iterations
of the `for` loop. -/
def Robot.step : Nat → Robot → Int → StepResult
  | 0, _, _ => StepResult.outOfFuel
  | fuel + 1, r, black =>
    let r0 := wrap r
    match index r0.program r0.pc with
    | none => StepResult.indexPanic
    | some cmd =>
      if HasPrefix cmd "GOTO" then
        Robot.step fuel { r0 with pc := gotoNext r0 cmd } black
      else
        match index r0.program r0.pc with
        | none => StepResult.indexPanic
        | some cmd2 => StepResult.done (execTimed r0 cmd2 black)

/-- The robot as a call of `step` leaves it when the call stops within `fuel`
iterations: the state returned, the state at the read that panics (the guard
at the top of the loop has already run), or the state reached when the fuel
is spent. -/
def Robot.stopState : Nat → Robot → Int → Robot
  | 0, r, _ => r
  | fuel + 1, r, black =>
    let r0 := wrap r
    match index r0.program r0.pc with
    | none => r0
    | some cmd =>
      if HasPrefix cmd "GOTO" then
        Robot.stopState fuel { r0 with pc := gotoNext r0 cmd } black
      else execTimed r0 cmd black

/-- The step returns, leaving the robot in state `r'`. -/
def Robot.Returns (r : Robot) (black : Int) (r' : Robot) : Prop :=
  ∃ fuel, Robot.step fuel r black = StepResult.done r'

/-- The `for` loop of the step never exits. -/
def Robot.Diverges (r : Robot) (black : Int) : Prop :=
  ∀ fuel, Robot.step fuel r black = StepResult.outOfFuel

/-- The command `GOTO n` as it is written in a program. -/
def gotoToken (n : Nat) : String :=
  "GOTO " ++ toString n

/-- The counter after a timed command moved it to `pc`: the final
`if r.pc >= len(r.program) { r.pc = 0 }`. -/
def wrapTo (len : Nat) (pc : Int) : Int :=
  if pc ≥ (len : Int) then 0 else pc

/-- A `GOTO` command without a usable target, in the three ways the
specification lists: no target at all, a target that is not an integer, or an
integer target outside `[1, len]`. -/
def MalformedTarget (cmd : String) (len : Nat) : Prop :=
  (Fields cmd).length < 2 ∨
  (∃ arg, (Fields cmd).get? 1 = some arg ∧ Atoi arg = none) ∨
  (∃ arg target, (Fields cmd).get? 1 = some arg ∧ Atoi arg = some target ∧
    (target < 1 ∨ (len : Int) < target))

/-- The four command forms of the instruction set: `ML`, `MR`, `IF FLAG` and
`GOTO <line>`.  The last form is read generously: the word `GOTO` as the
first field, whatever follows it. -/
def Recognized (cmd : String) : Bool :=
  cmd = "ML" || cmd = "MR" || cmd = "IF FLAG" || (Fields cmd).head? = some "GOTO"

/-! ## The driver loop of `main` -/

/-- The line printed after each simulated second: time and both positions. -/
structure Record where
  seconds : Int
  pos1 : Int
  pos2 : Int
  deriving DecidableEq, Repr

/-- How the driver loop ends. -/
inductive Outcome where
  /-- The robots were found in the same cell (MET): the cell and the time printed. -/
  | met (pos : Int) (seconds : Int)
  /-- The loop ran to its bound and the no-meeting message was printed (EXHAUSTED). -/
  | notMet
  /-- A call of `step` panicked on an out-of-range index. -/
  | indexPanic
  /-- A call of `step` was still looping when its fuel ran out. -/
  | outOfFuel
  deriving DecidableEq, Repr

/-- Everything observable when the driver stops: the outcome, the two robots
and the records printed so far, oldest first. -/
structure Run where
  outcome : Outcome
  robot1 : Robot
  robot2 : Robot
  records : List Record
  deriving DecidableEq, Repr

/-- The loop `for seconds < maxSteps { ... }` of `main`: the comparison of the
positions, the two steps, the increment of `seconds` and the printed record.
Each call of `step` gets `fuel` loop iterations; a call that panics or is still
looping when its fuel is spent ends the run with that outcome, the robot being
in the state the call left it in. -/
def mainLoop (fuel : Nat) (black maxSteps : Int) (seconds : Int)
    (robot1 robot2 : Robot) (out : List Record) : Run :=
  if seconds < maxSteps then
    if robot1.pos = robot2.pos then
      ⟨Outcome.met robot1.pos seconds, robot1, robot2, out⟩
    else
      match Robot.step fuel robot1 black with
      | StepResult.indexPanic =>
        ⟨Outcome.indexPanic, Robot.stopState fuel robot1 black, robot2, out⟩
      | StepResult.outOfFuel =>
        ⟨Outcome.outOfFuel, Robot.stopState fuel robot1 black, robot2, out⟩
      | StepResult.done a =>
        match Robot.step fuel robot2 black with
        | StepResult.indexPanic =>
          ⟨Outcome.indexPanic, a, Robot.stopState fuel robot2 black, out⟩
        | StepResult.outOfFuel =>
          ⟨Outcome.outOfFuel, a, Robot.stopState fuel robot2 black, out⟩
        | StepResult.done b =>
          mainLoop fuel black maxSteps (seconds + 1) a b
            (out ++ [⟨seconds + 1, a.pos, b.pos⟩])
  else ⟨Outcome.notMet, robot1, robot2, out⟩
termination_by (maxSteps - seconds).toNat
decreasing_by omega

/-- The simulation of `main` for arbitrary robots, marker and iteration bound:
`seconds := 0` followed by the loop. -/
def simulate (fuel : Nat) (black maxSteps : Int) (robot1 robot2 : Robot) : Run :=
  mainLoop fuel black maxSteps 0 robot1 robot2 []

/-- The function `main` with the configuration it hard-codes. -/
def main (fuel : Nat) : Run :=
  simulate fuel 1 1000 ⟨10, ["ML", "IF FLAG", "MR", "GOTO 1"], 0⟩
    ⟨-15, ["MR", "IF FLAG", "ML", "GOTO 1"], 0⟩

/-- The loop of `main` by recursion on the number of iterations its guard still
admits, `maxSteps - seconds` (zero once the guard is false).  It computes the
same as `mainLoop` (`mainLoop_eq_loopN`) and evaluates by plain unfolding. -/
def loopN (fuel : Nat) (black : Int) :
    Nat → Int → Robot → Robot → List Record → Run
  | 0, _, robot1, robot2, out => ⟨Outcome.notMet, robot1, robot2, out⟩
  | remaining + 1, seconds, robot1, robot2, out =>
    if robot1.pos = robot2.pos then
      ⟨Outcome.met robot1.pos seconds, robot1, robot2, out⟩
    else
      match Robot.step fuel robot1 black with
      | StepResult.indexPanic =>
        ⟨Outcome.indexPanic, Robot.stopState fuel robot1 black, robot2, out⟩
      | StepResult.outOfFuel =>
        ⟨Outcome.outOfFuel, Robot.stopState fuel robot1 black, robot2, out⟩
      | StepResult.done a =>
        match Robot.step fuel robot2 black with
        | StepResult.indexPanic =>
          ⟨Outcome.indexPanic, a, Robot.stopState fuel robot2 black, out⟩
        | StepResult.outOfFuel =>
          ⟨Outcome.outOfFuel, a, Robot.stopState fuel robot2 black, out⟩
        | StepResult.done b =>
          loopN fuel black remaining (seconds + 1) a b
            (out ++ [⟨seconds + 1, a.pos, b.pos⟩])

/-- One simulated second: `robot1.step(black)` then `robot2.step(black)`;
`none` when one of the two calls does not return within `fuel`. -/
def tick (fuel : Nat) (black : Int) (s : Robot × Robot) : Option (Robot × Robot) :=
  match Robot.step fuel s.1 black with
  | StepResult.done a =>
    match Robot.step fuel s.2 black with
    | StepResult.done b => some (a, b)
    | _ => none
  | _ => none

/-- The pair of robots after `n` simulated seconds. -/
def ticks (fuel : Nat) (black : Int) : Nat → Robot × Robot → Option (Robot × Robot)
  | 0, s => some s
  | n + 1, s => (tick fuel black s).bind (ticks fuel black n)

/-- The run with the two robots exchanged: same outcome, robots and record columns swapped. -/
def Run.swap (x : Run) : Run :=
  ⟨x.outcome, x.robot2, x.robot1, x.records.map (fun rec => ⟨rec.seconds, rec.pos2, rec.pos1⟩)⟩

/-- The driver reported an outcome: a meeting or the no-meeting message. -/
def Outcome.reported : Outcome → Bool
  | Outcome.met _ _ => true
  | Outcome.notMet => true
  | _ => false

/-- The counters at which the first `k` iterations of the loop of `step` read the
program, in order: the loop of `Robot.step` with the reads recorded. -/
def Robot.visited : Nat → Robot → List Int
  | 0, _ => []
  | k + 1, r =>
    let r0 := wrap r
    match index r0.program r0.pc with
    | none => []
    | some cmd =>
      if HasPrefix cmd "GOTO" then
        r0.pc :: Robot.visited k { r0 with pc := gotoNext r0 cmd }
      else [r0.pc]

/-- The step needs exactly `h + 1` loop iterations: it processes `h` `GOTO`
commands and then reaches a timed command. -/
def Robot.Hops (r : Robot) (black : Int) (h : Nat) : Prop :=
  (∃ r', Robot.step (h + 1) r black = StepResult.done r') ∧
    Robot.step h r black = StepResult.outOfFuel

/-- A list of decimal digit characters that reads back as `n`. -/
structure Numeral (n : Nat) (l : List Char) : Prop where
  ne_nil : l ≠ []
  digit : ∀ c ∈ l, c.isDigit = true ∧ IsSpace c = false ∧ c ≠ '-' ∧ c ≠ '+'
  value : ∀ a : Nat, l.foldl (fun n ch => n * 10 + (ch.toNat - 48)) a = a * 10 ^ l.length + n

end TaskFirst

/-! ## The currency rates of `Task_Third.go` -/

namespace TaskThird

open TaskFirst (Atoi IsSpace)

/-- A Go `float64` as the operators `<`, `>`, `>=`, `<=` and `==` see it: either `NaN`
or a number on the extended line (`⊥` is minus infinity, `⊤` plus infinity; every
finite `float64` is a rational, and the two zeros compare equal). -/
inductive Float64 where
  | nan
  | num (x : WithBot (WithTop ℚ))
  deriving DecidableEq

/-- Go `a < b` on `float64`: false as soon as one side is `NaN`. -/
def Float64.lt : Float64 → Float64 → Bool
  | Float64.num x, Float64.num y => decide (x < y)
  | _, _ => false

/-- Go `a > b` on `float64`. -/
def Float64.gt (a b : Float64) : Bool :=
  Float64.lt b a

/-- Go `a >= b` on `float64`: false as soon as one side is `NaN`. -/
def Float64.ge : Float64 → Float64 → Bool
  | Float64.num x, Float64.num y => decide (y ≤ x)
  | _, _ => false

/-- Go `a <= b` on `float64`. -/
def Float64.le (a b : Float64) : Bool :=
  Float64.ge b a

/-- Go `a == b` on `float64`: `NaN` is equal to nothing, itself included. -/
def Float64.eq : Float64 → Float64 → Bool
  | Float64.num x, Float64.num y => decide (x = y)
  | _, _ => false

/-- The `float64` operations of the program whose results depend on rounding.
They are parameters of the embedding: `strconv.ParseFloat(s, 64)` (`none` is a
non-nil error), `+`, `/` and the conversion `float64(n)` of an `int`. -/
structure Float64Ops where
  ParseFloat : String → Option Float64
  add : Float64 → Float64 → Float64
  div : Float64 → Float64 → Float64
  ofInt : Int → Float64

/-- One `Valute` element of the decoded document. -/
structure Valute where
  Nominal : String
  Name : String
  Value : String
  deriving DecidableEq

/-- The decoded document: the `Date` attribute and the `Valute` elements in order. -/
structure ValCurs where
  Date : String
  Valute : List Valute
  deriving DecidableEq

/-- A computed rate with the name of its currency and its date. -/
structure CurrencyRate where
  Rate : Float64
  Currency : String
  Date : String
  deriving DecidableEq

/-- Go `strings.TrimSpace`: the string without its leading and trailing white space. -/
def TrimSpace (s : String) : String :=
  String.mk (((s.data.dropWhile IsSpace).reverse.dropWhile IsSpace).reverse)

/-- Worker of `commaToDot`. -/
def commaToDotFrom : List Char → List Char
  | [] => []
  | c :: cs => if c = ',' then '.' :: cs else c :: commaToDotFrom cs

/-- Go `strings.Replace(s, ",", ".", 1)`: the first comma, if any, becomes a dot. -/
def commaToDot (s : String) : String :=
  String.mk (commaToDotFrom s.data)

/-- The body of the conversion loop of `fetchRatesForDate` for one element: the
list of rates after the element, given the list before it (`continue` leaves
the list as it is). -/
def convertStep (ops : Float64Ops) (date : String) (rates : List CurrencyRate) (v : Valute) :
    List CurrencyRate :=
  match Atoi (TrimSpace v.Nominal) with
  | none => rates
  | some nominal =>
    if nominal = 0 then rates
    else
      match ops.ParseFloat (commaToDot (TrimSpace v.Value)) with
      | none => rates
      | some rateVal => rates ++ [⟨ops.div rateVal (ops.ofInt nominal), v.Name, date⟩]

/-- The conversion loop of `fetchRatesForDate`: `var rates []CurrencyRate` followed
by `for _, v := range data.Valute { ... }`; the result is what the function
returns together with a nil error. -/
def fetchRatesLoop (ops : Float64Ops) (data : ValCurs) : List CurrencyRate :=
  data.Valute.foldl (convertStep ops data.Date) []

/-- The entries the claim keeps: the trimmed `Nominal` parses as an integer other
than zero and the trimmed `Value`, its first comma turned into a dot, parses
as a number. -/
def Qualifies (ops : Float64Ops) (v : Valute) : Bool :=
  (match Atoi (TrimSpace v.Nominal) with
    | some n => decide (n ≠ 0)
    | none => false) &&
  (ops.ParseFloat (commaToDot (TrimSpace v.Value))).isSome

/-- The record the claim describes for an entry: `Rate = Value / Nominal`, the name
of the entry and the date of the document. -/
def rateOf (ops : Float64Ops) (date : String) (v : Valute) : CurrencyRate :=
  ⟨ops.div ((ops.ParseFloat (commaToDot (TrimSpace v.Value))).getD Float64.nan)
      (ops.ofInt ((Atoi (TrimSpace v.Nominal)).getD 0)),
    v.Name, date⟩

/-- The list the claim describes: one record for each qualifying entry, in
document order. -/
def ratesSpec (ops : Float64Ops) (data : ValCurs) : List CurrencyRate :=
  (data.Valute.filter (Qualifies ops)).map (rateOf ops data.Date)

/-- The maximum and minimum found by the aggregation loop of `main`, each with the
currency and date it was found at. -/
structure Extremes where
  maxRate : Float64
  minRate : Float64
  maxCurrency : String
  minCurrency : String
  maxDate : String
  minDate : String
  deriving DecidableEq

/-- The two `if` statements of the aggregation loop of `main` for one record. -/
def extremesStep (e : Extremes) (r : CurrencyRate) : Extremes :=
  let e1 : Extremes :=
    if Float64.gt r.Rate e.maxRate then
      { e with maxRate := r.Rate, maxCurrency := r.Currency, maxDate := r.Date }
    else e
  if Float64.lt r.Rate e1.minRate then
    { e1 with minRate := r.Rate, minCurrency := r.Currency, minDate := r.Date }
  else e1

/-- The maximum and minimum part of the aggregation of `main`: the six variables
initialised from `allRates[0]`, then the loop over all records; `none` when
there is no record (the program prints a message and returns).  The loop of
the source also adds up the rates; that accumulator does not meet the other
six and is followed separately in `average`. -/
def extremes : List CurrencyRate → Option Extremes
  | [] => none
  | first :: rest =>
    some ((first :: rest).foldl extremesStep
      ⟨first.Rate, first.Rate, first.Currency, first.Currency, first.Date, first.Date⟩)

/-- The sum and average part of the aggregation of `main`: `var sum float64`,
`sum += r.Rate` for every record, `avgRate := sum / float64(len(allRates))`. -/
def average (ops : Float64Ops) : List CurrencyRate → Option Float64
  | [] => none
  | first :: rest =>
    some (ops.div ((first :: rest).foldl (fun sum r => ops.add sum r.Rate) (Float64.num 0))
      (ops.ofInt ((first :: rest).length : Int)))

/-- The record `r` occurs in the list and no record before it has a rate `==` to
the rate of `r`: it is the first record with that rate. -/
def FirstAt (l : List CurrencyRate) (r : CurrencyRate) : Prop :=
  ∃ pre suf, l = pre ++ r :: suf ∧ ∀ x ∈ pre, Float64.eq x.Rate r.Rate = false

/-- What the loop maintains about the maximum: it is the rate of a record seen,
with its currency and date; the records before it are strictly below, the
records after it are not above. -/
def MaxInv (seen : List CurrencyRate) (e : Extremes) : Prop :=
  ∃ pre r suf, seen = pre ++ r :: suf ∧ r.Rate ≠ Float64.nan ∧
    e.maxRate = r.Rate ∧ e.maxCurrency = r.Currency ∧ e.maxDate = r.Date ∧
    (∀ x ∈ pre, Float64.lt x.Rate r.Rate = true) ∧
    (∀ x ∈ suf, Float64.ge r.Rate x.Rate = true)

/-- The same for the minimum. -/
def MinInv (seen : List CurrencyRate) (e : Extremes) : Prop :=
  ∃ pre r suf, seen = pre ++ r :: suf ∧ r.Rate ≠ Float64.nan ∧
    e.minRate = r.Rate ∧ e.minCurrency = r.Currency ∧ e.minDate = r.Date ∧
    (∀ x ∈ pre, Float64.lt r.Rate x.Rate = true) ∧
    (∀ x ∈ suf, Float64.ge x.Rate r.Rate = true)

end TaskThird

namespace TaskFirst

/-! ## Basic facts about the embedding -/

theorem index_eq_some {program : List String} {i : Int} {cmd : String}
    (h : index program i = some cmd) : 0 ≤ i ∧ i < (program.length : Int) := by
  unfold index at h
  split at h
  · exact absurd h (by simp)
  · rename_i hi
    have hlt : i.toNat < program.length := by
      by_contra hge
      rw [List.get?_eq_none.mpr (Nat.le_of_not_lt hge)] at h
      exact absurd h (by simp)
    omega

theorem index_isSome {program : List String} {i : Int}
    (h0 : 0 ≤ i) (h1 : i < (program.length : Int)) : ∃ cmd, index program i = some cmd := by
  have hlt : i.toNat < program.length := by omega
  refine ⟨program.get ⟨i.toNat, hlt⟩, ?_⟩
  unfold index
  rw [if_neg (by omega), List.get?_eq_get hlt]

theorem wrap_of_lt {r : Robot} (h : r.pc < (r.program.length : Int)) : wrap r = r := by
  unfold wrap
  rw [if_neg (by omega)]

theorem wrap_program (r : Robot) : (wrap r).program = r.program := by
  unfold wrap
  split <;> rfl

theorem wrap_pos (r : Robot) : (wrap r).pos = r.pos := by
  unfold wrap
  split <;> rfl

theorem wrap_pc (r : Robot) : (wrap r).pc = wrapTo r.program.length r.pc := by
  unfold wrap wrapTo
  split <;> rfl

theorem wrap_pc_range {r : Robot} (hne : r.program ≠ []) (h0 : 0 ≤ r.pc) :
    0 ≤ (wrap r).pc ∧ (wrap r).pc < (r.program.length : Int) := by
  have hpos : 0 < r.program.length := List.length_pos.mpr hne
  rw [wrap_pc]
  unfold wrapTo
  split <;> omega

/-- One iteration of the loop when the counter addresses the command `cmd`. -/
theorem step_succ_of_index {r : Robot} {cmd : String} (fuel : Nat) (black : Int)
    (h : index r.program r.pc = some cmd) :
    Robot.step (fuel + 1) r black =
      if HasPrefix cmd "GOTO" then Robot.step fuel { r with pc := gotoNext r cmd } black
      else StepResult.done (execTimed r cmd black) := by
  have hw : wrap r = r := wrap_of_lt (index_eq_some h).2
  rw [Robot.step]
  simp only [hw, h]

theorem wrap_wrap (r : Robot) : wrap (wrap r) = wrap r := by
  by_cases h : r.pc ≥ (r.program.length : Int)
  · have hw : wrap r = { r with pc := 0 } := by
      unfold wrap
      rw [if_pos h]
    rw [hw]
    unfold wrap
    split <;> rfl
  · have hw : wrap r = r := wrap_of_lt (by omega)
    rw [hw, hw]

/-- The loop starts by wrapping the counter, so a step does not see the difference. -/
theorem step_wrap (fuel : Nat) (r : Robot) (black : Int) :
    Robot.step fuel (wrap r) black = Robot.step fuel r black := by
  cases fuel with
  | zero => rfl
  | succ k =>
    rw [Robot.step, Robot.step]
    simp only [wrap_wrap]

theorem gotoNext_nonneg {r : Robot} (cmd : String) (h0 : 0 ≤ r.pc) : 0 ≤ gotoNext r cmd := by
  unfold gotoNext
  split
  · split
    · split <;> omega
    · omega
  · omega

theorem execTimed_program (r : Robot) (cmd : String) (black : Int) :
    (execTimed r cmd black).program = r.program := by
  unfold execTimed
  simp only [wrap_program]
  split_ifs <;> rfl

theorem execTimed_pc_range {r : Robot} (cmd : String) (black : Int)
    (hne : r.program ≠ []) (h0 : 0 ≤ r.pc) :
    0 ≤ (execTimed r cmd black).pc ∧ (execTimed r cmd black).pc < (r.program.length : Int) := by
  unfold execTimed
  split_ifs <;> exact wrap_pc_range (by simpa using hne) (by simp only; omega)

/-- What a returning step guarantees, from any counter that is not negative. -/
theorem step_done_inv (fuel : Nat) : ∀ (r r' : Robot) (black : Int),
    r.program ≠ [] → 0 ≤ r.pc → Robot.step fuel r black = StepResult.done r' →
    r'.program = r.program ∧ 0 ≤ r'.pc ∧ r'.pc < (r.program.length : Int) := by
  induction fuel with
  | zero =>
    intro r r' black _ _ h
    simp [Robot.step] at h
  | succ k ih =>
    intro r r' black hne h0 h
    obtain ⟨hw0, hw1⟩ := wrap_pc_range hne h0
    rw [← step_wrap] at h
    rw [← wrap_program r] at hw1 hne ⊢
    obtain ⟨cmd, hcmd⟩ := index_isSome hw0 hw1
    rw [step_succ_of_index k black hcmd] at h
    split at h
    · exact ih { wrap r with pc := gotoNext (wrap r) cmd } r' black hne
        (gotoNext_nonneg cmd hw0) h
    · simp only [StepResult.done.injEq] at h
      subst h
      exact ⟨execTimed_program _ _ _, execTimed_pc_range cmd black hne hw0⟩

/-- A step on a robot with a program and a counter that is not negative never
indexes out of range. -/
theorem step_ne_indexPanic (fuel : Nat) : ∀ (r : Robot) (black : Int),
    r.program ≠ [] → 0 ≤ r.pc → Robot.step fuel r black ≠ StepResult.indexPanic := by
  induction fuel with
  | zero =>
    intro r black _ _
    simp [Robot.step]
  | succ k ih =>
    intro r black hne h0
    obtain ⟨hw0, hw1⟩ := wrap_pc_range hne h0
    rw [← step_wrap]
    rw [← wrap_program r] at hw1 hne
    obtain ⟨cmd, hcmd⟩ := index_isSome hw0 hw1
    rw [step_succ_of_index k black hcmd]
    split
    · exact ih { wrap r with pc := gotoNext (wrap r) cmd } black hne (gotoNext_nonneg cmd hw0)
    · simp

/-- More fuel does not change the outcome of a step that returned or panicked. -/
theorem step_fuel_succ (fuel : Nat) : ∀ (r : Robot) (black : Int),
    Robot.step fuel r black ≠ StepResult.outOfFuel →
    Robot.step (fuel + 1) r black = Robot.step fuel r black := by
  induction fuel with
  | zero =>
    intro r black h
    exact absurd rfl h
  | succ k ih =>
    intro r black h
    rw [Robot.step] at h ⊢
    rw [Robot.step]
    revert h
    cases hidx : index (wrap r).program (wrap r).pc with
    | none => simp
    | some cmd =>
      simp only
      split
      · intro h
        exact ih _ black h
      · intro _
        rfl

theorem step_fuel_le {fuel fuel' : Nat} (hle : fuel ≤ fuel') (r : Robot) (black : Int)
    (h : Robot.step fuel r black ≠ StepResult.outOfFuel) :
    Robot.step fuel' r black = Robot.step fuel r black := by
  induction hle with
  | refl => rfl
  | step _ ih => rw [step_fuel_succ _ r black (by rw [ih]; exact h), ih]

/-- A step has at most one result. -/
theorem Returns_unique {r a b : Robot} {black : Int}
    (ha : Robot.Returns r black a) (hb : Robot.Returns r black b) : a = b := by
  obtain ⟨f, hf⟩ := ha
  obtain ⟨g, hg⟩ := hb
  have h1 := step_fuel_le (Nat.le_max_left f g) r black (by rw [hf]; simp)
  have h2 := step_fuel_le (Nat.le_max_right f g) r black (by rw [hg]; simp)
  rw [hf] at h1
  rw [hg] at h2
  rw [h1] at h2
  exact StepResult.done.inj h2

/-! ## Reading the command `GOTO n` -/

theorem digitChar_toNat {m : Nat} (h : m < 10) : (Nat.digitChar m).toNat - 48 = m := by
  interval_cases m <;> rfl

theorem digitChar_isDigit {m : Nat} (h : m < 10) : (Nat.digitChar m).isDigit = true := by
  interval_cases m <;> rfl

theorem digitChar_not_space {m : Nat} (h : m < 10) : IsSpace (Nat.digitChar m) = false := by
  interval_cases m <;> rfl

theorem digitChar_not_sign {m : Nat} (h : m < 10) :
    Nat.digitChar m ≠ '-' ∧ Nat.digitChar m ≠ '+' := by
  interval_cases m <;> exact ⟨by decide, by decide⟩

theorem toDigitsCore_numeral (fuel : Nat) : ∀ (n : Nat) (ds : List Char), n < fuel →
    ∃ l, Nat.toDigitsCore 10 fuel n ds = l ++ ds ∧ Numeral n l := by
  induction fuel with
  | zero => intro n ds h; omega
  | succ k ih =>
    intro n ds h
    have hd : n % 10 < 10 := Nat.mod_lt _ (by decide)
    rw [Nat.toDigitsCore]
    by_cases hq : n / 10 = 0
    · simp only [hq, if_true]
      refine ⟨[Nat.digitChar (n % 10)], rfl, ?_, ?_, ?_⟩
      · simp
      · intro c hc
        rw [List.mem_singleton] at hc
        subst hc
        exact ⟨digitChar_isDigit hd, digitChar_not_space hd, digitChar_not_sign hd⟩
      · intro a
        have hn : n % 10 = n := Nat.mod_eq_of_lt (by omega)
        simp only [List.foldl, List.length_singleton, pow_one, digitChar_toNat hd]
        rw [hn]
    · simp only [hq, if_false]
      obtain ⟨l, hl, hnum⟩ := ih (n / 10) (Nat.digitChar (n % 10) :: ds) (by omega)
      refine ⟨l ++ [Nat.digitChar (n % 10)], ?_, ?_, ?_, ?_⟩
      · rw [hl]; simp
      · simp
      · intro c hc
        rw [List.mem_append, List.mem_singleton] at hc
        rcases hc with hc | hc
        · exact hnum.digit c hc
        · subst hc
          exact ⟨digitChar_isDigit hd, digitChar_not_space hd, digitChar_not_sign hd⟩
      · intro a
        rw [List.foldl_append, hnum.value a]
        simp only [List.foldl, List.length_append, List.length_singleton, digitChar_toNat hd]
        rw [pow_succ]
        have := Nat.div_add_mod n 10
        nlinarith [this]

theorem toString_numeral (n : Nat) : Numeral n (toString n).data := by
  obtain ⟨l, hl, hnum⟩ := toDigitsCore_numeral (n + 1) n [] (by omega)
  have : (toString n).data = l := by
    show (Nat.repr n).data = l
    rw [Nat.repr, Nat.toDigits, hl]
    simp [List.asString]
  rw [this]
  exact hnum

theorem fieldsFrom_no_space : ∀ (l cur : List Char), (∀ c ∈ l, IsSpace c = false) →
    fieldsFrom l cur = if (cur.reverse ++ l).isEmpty then [] else [cur.reverse ++ l] := by
  intro l
  induction l with
  | nil =>
    intro cur _
    simp [fieldsFrom]
  | cons c cs ih =>
    intro cur h
    have hc : IsSpace c = false := h c (List.mem_cons_self _ _)
    rw [fieldsFrom]
    simp only [hc, Bool.false_eq_true, if_false]
    rw [ih (c :: cur) (fun d hd => h d (List.mem_cons_of_mem _ hd))]
    simp

theorem Atoi_numeral {n : Nat} {l : List Char} (hnum : Numeral n l) (hn : n < 2 ^ 63) :
    Atoi (String.mk l) = some (n : Int) := by
  obtain ⟨c, t, rfl⟩ := List.exists_cons_of_ne_nil hnum.ne_nil
  obtain ⟨_, _, hminus, hplus⟩ := hnum.digit c (List.mem_cons_self _ _)
  have hall : (c :: t).all Char.isDigit = true := by
    rw [List.all_eq_true]
    intro d hd
    exact (hnum.digit d hd).1
  have hval : digitsValue (c :: t) = n := by
    unfold digitsValue
    rw [hnum.value 0]
    simp
  have hds : unsigned (c :: t) = c :: t := by
    unfold unsigned
    split
    · rename_i heq
      exact absurd (List.cons.inj heq).1 hminus
    · rename_i heq
      exact absurd (List.cons.inj heq).1 hplus
    · rfl
  unfold Atoi
  simp only [hds, List.head?_cons, Option.some.injEq, hminus, decide_False, Bool.false_eq_true,
    if_false, List.isEmpty_cons, hall, if_true, hval]
  rw [if_pos]
  constructor <;> omega

theorem gotoToken_data (n : Nat) :
    (gotoToken n).data = 'G' :: 'O' :: 'T' :: 'O' :: ' ' :: (toString n).data := by
  unfold gotoToken
  rw [String.data_append]
  rfl

theorem HasPrefix_gotoToken (n : Nat) : HasPrefix (gotoToken n) "GOTO" = true := by
  unfold HasPrefix
  rw [gotoToken_data]
  simp [List.isPrefixOf]

theorem Fields_gotoToken (n : Nat) : Fields (gotoToken n) = ["GOTO", toString n] := by
  have hnum := toString_numeral n
  unfold Fields
  rw [gotoToken_data]
  have hG : IsSpace 'G' = false := by decide
  have hO : IsSpace 'O' = false := by decide
  have hT : IsSpace 'T' = false := by decide
  have hS : IsSpace ' ' = true := by decide
  simp only [fieldsFrom, hG, hO, hT, hS, Bool.false_eq_true, if_false, if_true]
  rw [fieldsFrom_no_space _ _ (fun c hc => (hnum.digit c hc).2.1)]
  have hne : (toString n).data ≠ [] := hnum.ne_nil
  simp [hne]

theorem Atoi_toString {n : Nat} (hn : n < 2 ^ 63) : Atoi (toString n) = some (n : Int) := by
  have h := Atoi_numeral (toString_numeral n) hn
  simpa using h

/-- The jump target the loop reads off the command `GOTO n`. -/
theorem gotoNext_gotoToken (r : Robot) {n : Nat} (h1 : 1 ≤ n) (h2 : n ≤ r.program.length)
    (hlen : r.program.length < 2 ^ 63) : gotoNext r (gotoToken n) = (n : Int) - 1 := by
  unfold gotoNext
  rw [Fields_gotoToken]
  simp only [Atoi_toString (lt_of_le_of_lt h2 hlen)]
  rw [if_pos]
  constructor <;> omega

/-! ## One loop iteration -/

/-- When one loop iteration only moves the counter, the step has the results of the
step started at the new counter. -/
theorem returns_diverges_of_succ {r q : Robot} {black : Int}
    (h : ∀ fuel, Robot.step (fuel + 1) r black = Robot.step fuel q black) :
    (∀ r', Robot.Returns r black r' ↔ Robot.Returns q black r') ∧
    (Robot.Diverges r black ↔ Robot.Diverges q black) := by
  refine ⟨?_, ?_⟩
  · intro r'
    constructor
    · rintro ⟨fuel, hf⟩
      cases fuel with
      | zero => simp [Robot.step] at hf
      | succ k => exact ⟨k, by rw [← h k]; exact hf⟩
    · rintro ⟨fuel, hf⟩
      exact ⟨fuel + 1, by rw [h fuel]; exact hf⟩
  · constructor
    · intro hd fuel
      rw [← h fuel]
      exact hd (fuel + 1)
    · intro hd fuel
      cases fuel with
      | zero => rfl
      | succ k => rw [h k]; exact hd k

theorem gotoNext_malformed {r : Robot} {cmd : String}
    (hbad : MalformedTarget cmd r.program.length) : gotoNext r cmd = r.pc + 1 := by
  unfold gotoNext
  rcases hbad with h | ⟨arg, harg, hnone⟩ | ⟨arg, target, harg, hsome, hrange⟩
  · split
    · rename_i heq
      rw [heq] at h
      simp only [List.length_cons] at h
      omega
    · rfl
  · split
    · rename_i a b c heq
      rw [heq] at harg
      simp only [List.get?_cons_succ, List.get?_cons_zero, Option.some.injEq] at harg
      subst harg
      rw [hnone]
    · rfl
  · split
    · rename_i a b c heq
      rw [heq] at harg
      simp only [List.get?_cons_succ, List.get?_cons_zero, Option.some.injEq] at harg
      subst harg
      rw [hsome]
      simp only
      rw [if_neg]
      omega
    · rfl

theorem wrapInt64_of_range {x : Int} (h0 : -(2 ^ 63 : Int) ≤ x) (h1 : x < 2 ^ 63) :
    wrapInt64 x = x := by
  unfold wrapInt64
  omega

theorem wrapInt64_range (x : Int) : -(2 ^ 63 : Int) ≤ wrapInt64 x ∧ wrapInt64 x < 2 ^ 63 := by
  unfold wrapInt64
  omega

/-- A panic can only come from the first read of a call: the robot is then as the
guard at the top of the loop leaves it. -/
theorem stopState_of_indexPanic (fuel : Nat) (r : Robot) (black : Int)
    (h : Robot.step fuel r black = StepResult.indexPanic) :
    Robot.stopState fuel r black = wrap r := by
  have hbad : r.program = [] ∨ r.pc < 0 := by
    by_contra hcon
    push_neg at hcon
    exact step_ne_indexPanic fuel r black hcon.1 hcon.2 h
  cases fuel with
  | zero => simp [Robot.step] at h
  | succ k =>
    have hidx : index (wrap r).program (wrap r).pc = none := by
      rcases hbad with hb | hb
      · rw [wrap_program, hb]
        unfold index
        split <;> simp
      · have hw : wrap r = r := wrap_of_lt (by omega)
        rw [hw]
        unfold index
        rw [if_pos hb]
    rw [Robot.stopState]
    simp only [hidx]

theorem wrap_eq (r : Robot) : wrap r = { r with pc := wrapTo r.program.length r.pc } := by
  unfold wrap wrapTo
  split <;> rfl

theorem execTimed_eq (r : Robot) (cmd : String) (black : Int) :
    execTimed r cmd black =
      if cmd = "ML" then
        { r with pos := wrapInt64 (r.pos - 1), pc := wrapTo r.program.length (r.pc + 1) }
      else if cmd = "MR" then
        { r with pos := wrapInt64 (r.pos + 1), pc := wrapTo r.program.length (r.pc + 1) }
      else if cmd = "IF FLAG" then
        { r with pc := wrapTo r.program.length (if r.pos = black then r.pc + 1 else r.pc + 2) }
      else { r with pc := wrapTo r.program.length (r.pc + 1) } := by
  unfold execTimed
  rw [wrap_eq]
  split_ifs <;> rfl

/-! ## The driver loop -/

/-- The loop over the remaining iterations is the loop with the guard of the source. -/
theorem mainLoop_eq_loopN (fuel : Nat) (black maxSteps : Int) :
    ∀ (n : Nat) (seconds : Int) (a b : Robot) (out : List Record),
      (maxSteps - seconds).toNat = n →
      mainLoop fuel black maxSteps seconds a b out = loopN fuel black n seconds a b out := by
  intro n
  induction n with
  | zero =>
    intro seconds a b out hn
    rw [mainLoop, if_neg (by omega)]
    rfl
  | succ k ih =>
    intro seconds a b out hn
    rw [mainLoop, if_pos (by omega), loopN]
    by_cases hpos : a.pos = b.pos
    · rw [if_pos hpos, if_pos hpos]
    · rw [if_neg hpos, if_neg hpos]
      cases Robot.step fuel a black with
      | indexPanic => rfl
      | outOfFuel => rfl
      | done a' =>
        simp only
        cases Robot.step fuel b black with
        | indexPanic => rfl
        | outOfFuel => rfl
        | done b' =>
          simp only
          exact ih (seconds + 1) a' b' _ (by omega)

theorem simulate_eq_loopN (fuel : Nat) (black maxSteps : Int) (r1 r2 : Robot) :
    simulate fuel black maxSteps r1 r2 = loopN fuel black maxSteps.toNat 0 r1 r2 [] := by
  unfold simulate
  exact mainLoop_eq_loopN fuel black maxSteps maxSteps.toNat 0 r1 r2 [] (by simp)

theorem ticks_succ_of_step {fuel : Nat} {black : Int} {a b a' b' : Robot}
    (ha : Robot.step fuel a black = StepResult.done a')
    (hb : Robot.step fuel b black = StepResult.done b') (n : Nat) :
    ticks fuel black (n + 1) (a, b) = ticks fuel black n (a', b') := by
  rw [ticks, tick]
  simp only [ha, hb, Option.some_bind]

/-- A reported meeting: the loop stops at the first state with equal positions. -/
theorem loopN_met (fuel : Nat) (black : Int) :
    ∀ (k : Nat) (sec : Int) (a b : Robot) (out : List Record) (p t : Int),
      (loopN fuel black k sec a b out).outcome = Outcome.met p t →
      ∃ n : Nat, t = sec + n ∧ n < k ∧
        (∃ x y, ticks fuel black n (a, b) = some (x, y) ∧ x.pos = p ∧ y.pos = p) ∧
        ∀ s : Nat, s < n → ∃ x y, ticks fuel black s (a, b) = some (x, y) ∧ x.pos ≠ y.pos := by
  intro k
  induction k with
  | zero =>
    intro sec a b out p t h
    simp [loopN] at h
  | succ k ih =>
    intro sec a b out p t h
    rw [loopN] at h
    by_cases hpos : a.pos = b.pos
    · rw [if_pos hpos] at h
      simp only [Outcome.met.injEq] at h
      refine ⟨0, by simp [h.2], by omega, ⟨a, b, rfl, h.1, by rw [← hpos]; exact h.1⟩, ?_⟩
      intro s hs
      omega
    · rw [if_neg hpos] at h
      cases ha : Robot.step fuel a black with
      | indexPanic => rw [ha] at h; simp at h
      | outOfFuel => rw [ha] at h; simp at h
      | done a' =>
        rw [ha] at h
        simp only at h
        cases hb : Robot.step fuel b black with
        | indexPanic => rw [hb] at h; simp at h
        | outOfFuel => rw [hb] at h; simp at h
        | done b' =>
          rw [hb] at h
          simp only at h
          obtain ⟨n, ht, hn, ⟨x, y, hxy, hx, hy⟩, hbefore⟩ := ih _ _ _ _ _ _ h
          refine ⟨n + 1, by rw [ht]; push_cast; ring, by omega,
            ⟨x, y, by rw [ticks_succ_of_step ha hb]; exact hxy, hx, hy⟩, ?_⟩
          intro s hs
          cases s with
          | zero => exact ⟨a, b, rfl, hpos⟩
          | succ s' =>
            rw [ticks_succ_of_step ha hb]
            exact hbefore s' (by omega)

/-- The no-meeting report: the loop ran all its iterations, and the positions
differed each time it looked, which is before each iteration and not after the last. -/
theorem loopN_notMet (fuel : Nat) (black : Int) :
    ∀ (k : Nat) (sec : Int) (a b : Robot) (out : List Record),
      (loopN fuel black k sec a b out).outcome = Outcome.notMet →
      ticks fuel black k (a, b) =
          some ((loopN fuel black k sec a b out).robot1,
            (loopN fuel black k sec a b out).robot2) ∧
        ∀ s : Nat, s < k → ∃ x y, ticks fuel black s (a, b) = some (x, y) ∧ x.pos ≠ y.pos := by
  intro k
  induction k with
  | zero =>
    intro sec a b out _
    exact ⟨rfl, fun s hs => absurd hs (Nat.not_lt_zero s)⟩
  | succ k ih =>
    intro sec a b out h
    rw [loopN] at h ⊢
    by_cases hpos : a.pos = b.pos
    · rw [if_pos hpos] at h
      simp at h
    · rw [if_neg hpos] at h ⊢
      cases ha : Robot.step fuel a black with
      | indexPanic => rw [ha] at h; simp at h
      | outOfFuel => rw [ha] at h; simp at h
      | done a' =>
        rw [ha] at h
        simp only at h ⊢
        cases hb : Robot.step fuel b black with
        | indexPanic => rw [hb] at h; simp at h
        | outOfFuel => rw [hb] at h; simp at h
        | done b' =>
          rw [hb] at h
          simp only at h ⊢
          obtain ⟨hend, hbefore⟩ := ih _ _ _ _ h
          refine ⟨by rw [ticks_succ_of_step ha hb]; exact hend, ?_⟩
          intro s hs
          cases s with
          | zero => exact ⟨a, b, rfl, hpos⟩
          | succ s' =>
            rw [ticks_succ_of_step ha hb]
            exact hbefore s' (by omega)

/-! ## More about the loop of `step` and about the driver -/

/-- A run that did not stop for lack of fuel is the same with more fuel. -/
theorem loopN_fuel_le {fuel fuel' : Nat} (hle : fuel ≤ fuel') (black : Int) :
    ∀ (k : Nat) (sec : Int) (a b : Robot) (out : List Record),
      (loopN fuel black k sec a b out).outcome ≠ Outcome.outOfFuel →
      loopN fuel' black k sec a b out = loopN fuel black k sec a b out := by
  intro k
  induction k with
  | zero =>
    intro sec a b out _
    rfl
  | succ k ih =>
    intro sec a b out h
    rw [loopN] at h ⊢
    rw [loopN]
    by_cases hpos : a.pos = b.pos
    · rw [if_pos hpos, if_pos hpos]
    · rw [if_neg hpos] at h ⊢
      rw [if_neg hpos]
      have ha : Robot.step fuel a black ≠ StepResult.outOfFuel := by
        intro hs
        rw [hs] at h
        exact h rfl
      have ha' := step_fuel_le hle a black ha
      rw [ha']
      cases hsa : Robot.step fuel a black with
      | indexPanic =>
        simp only
        rw [stopState_of_indexPanic fuel' a black (by rw [ha', hsa]),
          stopState_of_indexPanic fuel a black hsa]
      | outOfFuel => exact absurd hsa ha
      | done a' =>
        rw [hsa] at h
        simp only at h ⊢
        have hb : Robot.step fuel b black ≠ StepResult.outOfFuel := by
          intro hs
          rw [hs] at h
          exact h rfl
        have hb' := step_fuel_le hle b black hb
        rw [hb']
        cases hsb : Robot.step fuel b black with
        | indexPanic =>
          simp only
          rw [stopState_of_indexPanic fuel' b black (by rw [hb', hsb]),
            stopState_of_indexPanic fuel b black hsb]
        | outOfFuel => exact absurd hsb hb
        | done b' =>
          rw [hsb] at h
          simp only at h ⊢
          exact ih _ _ _ _ h

/-- Exchanging the robots exchanges the results of a tick. -/
theorem tick_swap (fuel : Nat) (black : Int) (a b : Robot) :
    tick fuel black (b, a) = (tick fuel black (a, b)).map Prod.swap := by
  unfold tick
  cases Robot.step fuel a black <;> cases Robot.step fuel b black <;> rfl

/-- A run that reports an outcome is mirrored by the run with the robots exchanged. -/
theorem loopN_swap (fuel : Nat) (black : Int) :
    ∀ (k : Nat) (sec : Int) (a b : Robot) (out : List Record),
      (loopN fuel black k sec a b out).outcome.reported = true →
      loopN fuel black k sec b a (out.map (fun rec => ⟨rec.seconds, rec.pos2, rec.pos1⟩)) =
        (loopN fuel black k sec a b out).swap := by
  intro k
  induction k with
  | zero =>
    intro sec a b out _
    rfl
  | succ k ih =>
    intro sec a b out h
    rw [loopN] at h ⊢
    rw [loopN]
    by_cases hpos : a.pos = b.pos
    · rw [if_pos hpos, if_pos hpos.symm]
      simp only [Run.swap, hpos]
    · rw [if_neg hpos] at h ⊢
      rw [if_neg (fun hba => hpos hba.symm)]
      cases hsa : Robot.step fuel a black with
      | indexPanic => rw [hsa] at h; simp [Outcome.reported] at h
      | outOfFuel => rw [hsa] at h; simp [Outcome.reported] at h
      | done a' =>
        rw [hsa] at h
        simp only at h ⊢
        cases hsb : Robot.step fuel b black with
        | indexPanic => rw [hsb] at h; simp [Outcome.reported] at h
        | outOfFuel => rw [hsb] at h; simp [Outcome.reported] at h
        | done b' =>
          rw [hsb] at h
          simp only at h ⊢
          have := ih (sec + 1) a' b' (out ++ [⟨sec + 1, a'.pos, b'.pos⟩]) h
          rw [← this]
          simp

theorem index_mem {program : List String} {i : Int} {cmd : String}
    (h : index program i = some cmd) : cmd ∈ program := by
  unfold index at h
  split at h
  · exact absurd h (by simp)
  · exact List.get?_mem h

/-- With an empty program or a negative counter the first read of the loop panics. -/
theorem step_indexPanic_of_bad (fuel : Nat) (r : Robot) (black : Int)
    (h : r.program = [] ∨ r.pc < 0) : Robot.step (fuel + 1) r black = StepResult.indexPanic := by
  have hidx : index (wrap r).program (wrap r).pc = none := by
    rcases h with h | h
    · rw [wrap_program, h]
      unfold index
      split <;> simp
    · have hw : wrap r = r := wrap_of_lt (by omega)
      rw [hw]
      unfold index
      rw [if_pos h]
  rw [Robot.step]
  simp only [hidx]

/-- A program made of `GOTO` commands only keeps the loop running. -/
theorem step_outOfFuel_of_all_goto (black : Int) (fuel : Nat) : ∀ (r : Robot),
    r.program ≠ [] → (∀ cmd ∈ r.program, HasPrefix cmd "GOTO" = true) → 0 ≤ r.pc →
    Robot.step fuel r black = StepResult.outOfFuel := by
  induction fuel with
  | zero =>
    intro r _ _ _
    rfl
  | succ k ih =>
    intro r hne hall h0
    obtain ⟨hw0, hw1⟩ := wrap_pc_range hne h0
    rw [← step_wrap]
    rw [← wrap_program r] at hw1 hne hall
    obtain ⟨cmd, hcmd⟩ := index_isSome hw0 hw1
    rw [step_succ_of_index k black hcmd, if_pos (hall cmd (index_mem hcmd))]
    exact ih { wrap r with pc := gotoNext (wrap r) cmd } hne hall (gotoNext_nonneg cmd hw0)

/-- A robot without program never completes a step. -/
theorem step_ne_done_of_empty (fuel : Nat) (r r' : Robot) (black : Int)
    (h : r.program = []) : Robot.step fuel r black ≠ StepResult.done r' := by
  cases fuel with
  | zero => simp [Robot.step]
  | succ k =>
    rw [step_indexPanic_of_bad k r black (Or.inl h)]
    simp

/-- A step that returns has left the position alone or has applied one `--` or one
`++` of the 64-bit `int` to it. -/
theorem step_pos_change (black : Int) (fuel : Nat) : ∀ (r r' : Robot),
    Robot.step fuel r black = StepResult.done r' →
    r'.pos = r.pos ∨ r'.pos = wrapInt64 (r.pos - 1) ∨ r'.pos = wrapInt64 (r.pos + 1) := by
  induction fuel with
  | zero =>
    intro r r' h
    simp [Robot.step] at h
  | succ k ih =>
    intro r r' h
    rw [Robot.step] at h
    cases hidx : index (wrap r).program (wrap r).pc with
    | none => rw [hidx] at h; simp at h
    | some cmd =>
      rw [hidx] at h
      simp only at h
      split at h
      · have := ih { wrap r with pc := gotoNext (wrap r) cmd } r' h
        simpa [wrap_pos] using this
      · simp only [StepResult.done.injEq] at h
        subst h
        rw [execTimed_eq]
        split_ifs <;> simp [wrap_pos]

/-- Away from the ends of the 64-bit range a step moves the robot by at most one cell. -/
theorem step_pos_change_inside (black : Int) (fuel : Nat) (r r' : Robot)
    (h : Robot.step fuel r black = StepResult.done r')
    (h0 : -(2 ^ 63 : Int) < r.pos) (h1 : r.pos < 2 ^ 63 - 1) : |r'.pos - r.pos| ≤ 1 := by
  have hm : wrapInt64 (r.pos - 1) = r.pos - 1 := wrapInt64_of_range (by omega) (by omega)
  have hp : wrapInt64 (r.pos + 1) = r.pos + 1 := wrapInt64_of_range (by omega) (by omega)
  rw [abs_le]
  rcases step_pos_change black fuel r r' h with hc | hc | hc
  · rw [hc]
    constructor <;> omega
  · rw [hc, hm]
    constructor <;> omega
  · rw [hc, hp]
    constructor <;> omega

/-- A robot that starts at least `n` cells inside the 64-bit range is, after `n`
ticks, at most `n` cells from where it started. -/
theorem ticks_pos_change (fuel : Nat) (black : Int) : ∀ (n : Nat) (a b x y : Robot),
    ticks fuel black n (a, b) = some (x, y) →
    (-(2 ^ 63 : Int) + n ≤ a.pos → a.pos ≤ 2 ^ 63 - 1 - n → |x.pos - a.pos| ≤ n) ∧
    (-(2 ^ 63 : Int) + n ≤ b.pos → b.pos ≤ 2 ^ 63 - 1 - n → |y.pos - b.pos| ≤ n) := by
  intro n
  induction n with
  | zero =>
    intro a b x y h
    simp only [ticks, Option.some.injEq, Prod.mk.injEq] at h
    obtain ⟨rfl, rfl⟩ := h
    simp
  | succ n ih =>
    intro a b x y h
    rw [ticks, tick] at h
    cases ha : Robot.step fuel a black with
    | indexPanic => rw [ha] at h; simp at h
    | outOfFuel => rw [ha] at h; simp at h
    | done a' =>
      rw [ha] at h
      simp only at h
      cases hb : Robot.step fuel b black with
      | indexPanic => rw [hb] at h; simp at h
      | outOfFuel => rw [hb] at h; simp at h
      | done b' =>
        rw [hb] at h
        simp only [Option.some_bind] at h
        obtain ⟨h1, h2⟩ := ih a' b' x y h
        constructor
        · intro hlo hhi
          push_cast at hlo hhi
          have ha1 := step_pos_change_inside black fuel a a' ha (by omega) (by omega)
          rw [abs_le] at ha1
          have := h1 (by omega) (by omega)
          rw [abs_le] at this ⊢
          push_cast
          constructor <;> omega
        · intro hlo hhi
          push_cast at hlo hhi
          have hb1 := step_pos_change_inside black fuel b b' hb (by omega) (by omega)
          rw [abs_le] at hb1
          have := h2 (by omega) (by omega)
          rw [abs_le] at this ⊢
          push_cast
          constructor <;> omega

/-- Reducing into the 64-bit range before a further change makes no difference. -/
theorem wrapInt64_add (x e : Int) : wrapInt64 (wrapInt64 x + e) = wrapInt64 (x + e) := by
  unfold wrapInt64
  omega

/-- After `n` ticks each robot that started inside the 64-bit range stands where
`n` moves of at most one cell in total `d`, reduced into the range, take it. -/
theorem ticks_pos_wrap (fuel : Nat) (black : Int) : ∀ (n : Nat) (a b x y : Robot),
    ticks fuel black n (a, b) = some (x, y) →
    (-(2 ^ 63 : Int) ≤ a.pos → a.pos < 2 ^ 63 →
      ∃ d : Int, |d| ≤ n ∧ x.pos = wrapInt64 (a.pos + d)) ∧
    (-(2 ^ 63 : Int) ≤ b.pos → b.pos < 2 ^ 63 →
      ∃ d : Int, |d| ≤ n ∧ y.pos = wrapInt64 (b.pos + d)) := by
  have key : ∀ (n : Nat) (r r' z : Robot),
      (r'.pos = r.pos ∨ r'.pos = wrapInt64 (r.pos - 1) ∨ r'.pos = wrapInt64 (r.pos + 1)) →
      -(2 ^ 63 : Int) ≤ r.pos → r.pos < 2 ^ 63 →
      (-(2 ^ 63 : Int) ≤ r'.pos → r'.pos < 2 ^ 63 →
        ∃ d : Int, |d| ≤ n ∧ z.pos = wrapInt64 (r'.pos + d)) →
      ∃ d : Int, |d| ≤ (n + 1 : Nat) ∧ z.pos = wrapInt64 (r.pos + d) := by
    intro n r r' z hc h0 h1 hrec
    have hr' : -(2 ^ 63 : Int) ≤ r'.pos ∧ r'.pos < 2 ^ 63 := by
      rcases hc with hc | hc | hc
      · rw [hc]; exact ⟨h0, h1⟩
      · rw [hc]; exact wrapInt64_range _
      · rw [hc]; exact wrapInt64_range _
    obtain ⟨d, hd, hz⟩ := hrec hr'.1 hr'.2
    rw [abs_le] at hd
    rcases hc with hc | hc | hc
    · refine ⟨d, ?_, by rw [hz, hc]⟩
      rw [abs_le]; push_cast; constructor <;> omega
    · refine ⟨d - 1, ?_, ?_⟩
      · rw [abs_le]; push_cast; constructor <;> omega
      · rw [hz, hc, wrapInt64_add]; congr 1; ring
    · refine ⟨d + 1, ?_, ?_⟩
      · rw [abs_le]; push_cast; constructor <;> omega
      · rw [hz, hc, wrapInt64_add]; congr 1; ring
  intro n
  induction n with
  | zero =>
    intro a b x y h
    simp only [ticks, Option.some.injEq, Prod.mk.injEq] at h
    obtain ⟨rfl, rfl⟩ := h
    exact ⟨fun h0 h1 => ⟨0, by simp, by rw [add_zero, wrapInt64_of_range h0 h1]⟩,
      fun h0 h1 => ⟨0, by simp, by rw [add_zero, wrapInt64_of_range h0 h1]⟩⟩
  | succ n ih =>
    intro a b x y h
    rw [ticks, tick] at h
    cases ha : Robot.step fuel a black with
    | indexPanic => rw [ha] at h; simp at h
    | outOfFuel => rw [ha] at h; simp at h
    | done a' =>
      rw [ha] at h
      simp only at h
      cases hb : Robot.step fuel b black with
      | indexPanic => rw [hb] at h; simp at h
      | outOfFuel => rw [hb] at h; simp at h
      | done b' =>
        rw [hb] at h
        simp only [Option.some_bind] at h
        obtain ⟨h1, h2⟩ := ih a' b' x y h
        exact ⟨fun h0 hlt => key n a a' x (step_pos_change black fuel a a' ha) h0 hlt h1,
          fun h0 hlt => key n b b' y (step_pos_change black fuel b b' hb) h0 hlt h2⟩

theorem Hops_unique {r : Robot} {black : Int} {h h' : Nat}
    (hh : Robot.Hops r black h) (hh' : Robot.Hops r black h') : h = h' := by
  obtain ⟨⟨a, ha⟩, hout⟩ := hh
  obtain ⟨⟨b, hb⟩, hout'⟩ := hh'
  by_contra hne
  rcases Nat.lt_or_gt_of_ne hne with hlt | hgt
  · have := step_fuel_le (Nat.succ_le_of_lt hlt) r black (by rw [ha]; simp)
    rw [hout', ha] at this
    exact absurd this (by simp)
  · have := step_fuel_le (Nat.succ_le_of_lt hgt) r black (by rw [hb]; simp)
    rw [hout, hb] at this
    exact absurd this (by simp)

theorem Hops_of_done (black : Int) (fuel : Nat) : ∀ (r r' : Robot),
    Robot.step fuel r black = StepResult.done r' → ∃ h, h < fuel ∧ Robot.Hops r black h := by
  induction fuel with
  | zero =>
    intro r r' h
    simp [Robot.step] at h
  | succ k ih =>
    intro r r' h
    cases hk : Robot.step k r black with
    | done a =>
      obtain ⟨j, hj, hh⟩ := ih r a hk
      exact ⟨j, by omega, hh⟩
    | indexPanic =>
      have := step_fuel_succ k r black (by rw [hk]; simp)
      rw [h, hk] at this
      exact absurd this (by simp)
    | outOfFuel => exact ⟨k, by omega, ⟨r', h⟩, hk⟩

theorem Hops_wrap (r : Robot) (black : Int) (h : Nat) :
    Robot.Hops (wrap r) black h ↔ Robot.Hops r black h := by
  unfold Robot.Hops
  simp only [step_wrap]

theorem visited_wrap (k : Nat) (r : Robot) :
    Robot.visited k (wrap r) = Robot.visited k r := by
  cases k with
  | zero => rfl
  | succ k =>
    rw [Robot.visited, Robot.visited]
    simp only [wrap_wrap]

theorem with_pc_wrap (r : Robot) (x : Int) : { wrap r with pc := x } = { r with pc := x } := by
  unfold wrap
  split <;> rfl

/-- The counters read by a returning step: as many as iterations, all inside the
program, and each one the start of a strictly shorter resolution than the ones
before it. -/
theorem visited_of_Hops (black : Int) (h : Nat) : ∀ (r : Robot),
    r.program ≠ [] → 0 ≤ r.pc → Robot.Hops r black h →
    (Robot.visited (h + 1) r).length = h + 1 ∧
    (∀ x ∈ Robot.visited (h + 1) r, 0 ≤ x ∧ x < (r.program.length : Int) ∧
      ∃ j, j ≤ h ∧ Robot.Hops { r with pc := x } black j) ∧
    (Robot.visited (h + 1) r).Nodup := by
  induction h with
  | zero =>
    intro r hne h0 hh
    obtain ⟨hw0, hw1⟩ := wrap_pc_range hne h0
    have hw1' : (wrap r).pc < ((wrap r).program.length : Int) := by rw [wrap_program]; exact hw1
    obtain ⟨cmd, hcmd⟩ := index_isSome hw0 hw1'
    obtain ⟨⟨a, ha⟩, -⟩ := hh
    have hgoto : HasPrefix cmd "GOTO" = false := by
      by_contra hg
      rw [← step_wrap, step_succ_of_index 0 black hcmd, if_pos (by simpa using hg)] at ha
      simp [Robot.step] at ha
    have hv : Robot.visited 1 r = [(wrap r).pc] := by
      rw [Robot.visited]
      simp only [hcmd, hgoto, Bool.false_eq_true, if_false]
    rw [hv]
    refine ⟨rfl, ?_, List.nodup_singleton _⟩
    intro x hx
    rw [List.mem_singleton] at hx
    subst hx
    refine ⟨hw0, hw1, 0, le_refl 0, ?_⟩
    have : ({ r with pc := (wrap r).pc } : Robot) = wrap r := by
      rw [← with_pc_wrap]
    rw [this, Hops_wrap]
    exact ⟨⟨a, ha⟩, rfl⟩
  | succ h ih =>
    intro r hne h0 hh
    obtain ⟨hw0, hw1⟩ := wrap_pc_range hne h0
    have hw1' : (wrap r).pc < ((wrap r).program.length : Int) := by rw [wrap_program]; exact hw1
    have hne' : (wrap r).program ≠ [] := by rw [wrap_program]; exact hne
    obtain ⟨cmd, hcmd⟩ := index_isSome hw0 hw1'
    have hh0 := hh
    obtain ⟨⟨a, ha⟩, hout⟩ := hh
    have hgoto : HasPrefix cmd "GOTO" = true := by
      by_contra hg
      rw [← step_wrap, step_succ_of_index h black hcmd, if_neg hg] at hout
      simp at hout
    rw [← step_wrap, step_succ_of_index (h + 1) black hcmd, if_pos hgoto] at ha
    rw [← step_wrap, step_succ_of_index h black hcmd, if_pos hgoto] at hout
    have hnext : Robot.Hops { wrap r with pc := gotoNext (wrap r) cmd } black h := ⟨⟨a, ha⟩, hout⟩
    obtain ⟨hlen, hmem, hnodup⟩ :=
      ih { wrap r with pc := gotoNext (wrap r) cmd } hne' (gotoNext_nonneg cmd hw0) hnext
    have hv : Robot.visited (h + 1 + 1) r =
        (wrap r).pc :: Robot.visited (h + 1) { wrap r with pc := gotoNext (wrap r) cmd } := by
      rw [Robot.visited]
      simp only [hcmd, hgoto, if_true]
    have hhead : Robot.Hops { r with pc := (wrap r).pc } black (h + 1) := by
      have : ({ r with pc := (wrap r).pc } : Robot) = wrap r := by
        rw [← with_pc_wrap]
      rw [this, Hops_wrap]
      exact hh0
    rw [hv]
    refine ⟨by simp [hlen], ?_, ?_⟩
    · intro x hx
      rw [List.mem_cons] at hx
      rcases hx with rfl | hx
      · exact ⟨hw0, hw1, h + 1, le_refl _, hhead⟩
      · obtain ⟨hx0, hx1, j, hj, hhops⟩ := hmem x hx
        refine ⟨hx0, by simpa [wrap_program] using hx1, j, by omega, ?_⟩
        have : ({ ({ wrap r with pc := gotoNext (wrap r) cmd } : Robot) with pc := x } : Robot) =
            { r with pc := x } := with_pc_wrap r x
        rw [← this]
        exact hhops
    · rw [List.nodup_cons]
      refine ⟨?_, hnodup⟩
      intro hx
      obtain ⟨_, _, j, hj, hhops⟩ := hmem _ hx
      have : ({ ({ wrap r with pc := gotoNext (wrap r) cmd } : Robot) with pc := (wrap r).pc } :
          Robot) = { r with pc := (wrap r).pc } := with_pc_wrap r _
      rw [this] at hhops
      have := Hops_unique hhops hhead
      omega

/-- Distinct counters inside the program: there are at most `len(program)` of them. -/
theorem length_le_of_nodup_range {l : List Int} {n : Nat} (hnd : l.Nodup)
    (hr : ∀ x ∈ l, 0 ≤ x ∧ x < (n : Int)) : l.length ≤ n := by
  have hsub : l.toFinset ⊆ Finset.Ico (0 : Int) n := by
    intro x hx
    rw [List.mem_toFinset] at hx
    rw [Finset.mem_Ico]
    exact hr x hx
  have hcard := Finset.card_le_card hsub
  rw [List.toFinset_card_of_nodup hnd, Int.card_Ico] at hcard
  simpa using hcard

/-! ## The step of a robot: claims C1 to C6 -/

/-- C1 (wrap invariant).  For a robot with a non-empty program and a counter that is
not negative, even one at or past the end of the program, and for every marker:
whenever `step` returns, the counter of the resulting robot is at least 0 and
below the length of the program, which the step leaves as it was. -/
theorem step_counter_in_range (r r' : Robot) (black : Int)
    (hne : r.program ≠ []) (hpc : 0 ≤ r.pc) (h : Robot.Returns r black r') :
    0 ≤ r'.pc ∧ r'.pc < (r'.program.length : Int) ∧ r'.program = r.program := by
  obtain ⟨fuel, hf⟩ := h
  obtain ⟨hprog, h0, h1⟩ := step_done_inv fuel r r' black hne hpc hf
  rw [hprog]
  exact ⟨h0, h1, rfl⟩

theorem step_counter_in_range_witness :
    (["ML", "GOTO 1"] : List String) ≠ [] ∧ (0 : Int) ≤ 7 ∧
    Robot.Returns ⟨3, ["ML", "GOTO 1"], 7⟩ 0 ⟨2, ["ML", "GOTO 1"], 1⟩ ∧
    (0 : Int) ≤ 1 ∧ (1 : Int) < 2 :=
  have h := step_counter_in_range ⟨3, ["ML", "GOTO 1"], 7⟩ ⟨2, ["ML", "GOTO 1"], 1⟩ 0
    (by decide) (by decide) ⟨1, by decide⟩
  ⟨by decide, by decide, ⟨1, by decide⟩, h.1, h.2.1⟩

/-- C2 (a valid jump is free and 1-based).  If the command at the counter is
`GOTO n` with `1 ≤ n ≤ len(program)`, one iteration of the loop only sets the
counter to `n - 1`: the step then continues exactly as the step of the same
robot with counter `n - 1`.  Hence both have the same results (position and
counter) and one runs forever exactly when the other does.  The length of the
program is below `2^63`, as the length of every Go slice is. -/
theorem step_goto_is_free (r : Robot) (black : Int) (n : Nat)
    (hcmd : index r.program r.pc = some (gotoToken n))
    (h1 : 1 ≤ n) (h2 : n ≤ r.program.length) (hlen : r.program.length < 2 ^ 63) :
    (∀ fuel, Robot.step (fuel + 1) r black =
      Robot.step fuel { r with pc := (n : Int) - 1 } black) ∧
    (∀ r', Robot.Returns r black r' ↔ Robot.Returns { r with pc := (n : Int) - 1 } black r') ∧
    (Robot.Diverges r black ↔ Robot.Diverges { r with pc := (n : Int) - 1 } black) := by
  have h : ∀ fuel, Robot.step (fuel + 1) r black =
      Robot.step fuel { r with pc := (n : Int) - 1 } black := by
    intro fuel
    rw [step_succ_of_index fuel black hcmd, if_pos (HasPrefix_gotoToken n),
      gotoNext_gotoToken r h1 h2 hlen]
  exact ⟨h, returns_diverges_of_succ h⟩

theorem step_goto_is_free_witness :
    index ["ML", "IF FLAG", "MR", "GOTO 1"] 3 = some (gotoToken 1) ∧
    (∀ fuel, Robot.step (fuel + 1) ⟨10, ["ML", "IF FLAG", "MR", "GOTO 1"], 3⟩ 1 =
      Robot.step fuel ⟨10, ["ML", "IF FLAG", "MR", "GOTO 1"], 0⟩ 1) ∧
    Robot.step 2 ⟨10, ["ML", "IF FLAG", "MR", "GOTO 1"], 3⟩ 1 =
      StepResult.done ⟨9, ["ML", "IF FLAG", "MR", "GOTO 1"], 1⟩ :=
  ⟨by decide,
    (step_goto_is_free ⟨10, ["ML", "IF FLAG", "MR", "GOTO 1"], 3⟩ 1 1 (by decide) (by decide)
      (by decide) (by norm_num)).1,
    by decide⟩

/-- C3 (malformed jumps fall through).  If the command at the counter starts with
`GOTO` and has no target, a target that is not an integer, or an integer
target outside `[1, len(program)]`, one iteration of the loop only advances the
counter by one: the step continues exactly as the step of the same robot with
counter `pc + 1`, equivalently with that counter wrapped to 0 at the end of the
program.  Both have the same results, one runs forever exactly when the other
does, and no index panic is raised. -/
theorem step_malformed_goto_falls_through (r : Robot) (black : Int) (cmd : String)
    (hcmd : index r.program r.pc = some cmd) (hgoto : HasPrefix cmd "GOTO" = true)
    (hbad : MalformedTarget cmd r.program.length) :
    (∀ fuel, Robot.step (fuel + 1) r black = Robot.step fuel { r with pc := r.pc + 1 } black) ∧
    (∀ fuel, Robot.step (fuel + 1) r black =
      Robot.step fuel { r with pc := wrapTo r.program.length (r.pc + 1) } black) ∧
    (∀ r', Robot.Returns r black r' ↔
      Robot.Returns { r with pc := wrapTo r.program.length (r.pc + 1) } black r') ∧
    (Robot.Diverges r black ↔
      Robot.Diverges { r with pc := wrapTo r.program.length (r.pc + 1) } black) ∧
    (∀ fuel, Robot.step fuel r black ≠ StepResult.indexPanic) := by
  have h : ∀ fuel, Robot.step (fuel + 1) r black =
      Robot.step fuel { r with pc := r.pc + 1 } black := by
    intro fuel
    rw [step_succ_of_index fuel black hcmd, if_pos hgoto, gotoNext_malformed hbad]
  have hw : ∀ fuel, Robot.step (fuel + 1) r black =
      Robot.step fuel { r with pc := wrapTo r.program.length (r.pc + 1) } black := by
    intro fuel
    rw [h fuel, ← step_wrap, wrap_eq]
  obtain ⟨h0, hlt⟩ := index_eq_some hcmd
  have hne : r.program ≠ [] := by
    intro hnil
    rw [hnil] at hlt
    simp at hlt
    omega
  exact ⟨h, hw, (returns_diverges_of_succ hw).1, (returns_diverges_of_succ hw).2,
    fun fuel => step_ne_indexPanic fuel r black hne h0⟩

theorem step_malformed_goto_falls_through_witness :
    (∀ fuel, Robot.step (fuel + 1) ⟨5, ["GOTO", "MR", "ML"], 0⟩ 0 =
      Robot.step fuel ⟨5, ["GOTO", "MR", "ML"], 1⟩ 0) ∧
    (∀ fuel, Robot.step (fuel + 1) ⟨5, ["MR", "ML", "GOTO abc"], 2⟩ 0 =
      Robot.step fuel ⟨5, ["MR", "ML", "GOTO abc"], 0⟩ 0) ∧
    (∀ fuel, Robot.step (fuel + 1) ⟨5, ["GOTO 0", "MR", "ML"], 0⟩ 0 =
      Robot.step fuel ⟨5, ["GOTO 0", "MR", "ML"], 1⟩ 0) ∧
    (∀ fuel, Robot.step (fuel + 1) ⟨5, ["GOTO 4", "MR", "ML"], 0⟩ 0 =
      Robot.step fuel ⟨5, ["GOTO 4", "MR", "ML"], 1⟩ 0) :=
  ⟨(step_malformed_goto_falls_through ⟨5, ["GOTO", "MR", "ML"], 0⟩ 0 "GOTO"
      (by decide) (by decide) (Or.inl (by decide))).1,
    (step_malformed_goto_falls_through ⟨5, ["MR", "ML", "GOTO abc"], 2⟩ 0 "GOTO abc"
      (by decide) (by decide) (Or.inr (Or.inl ⟨"abc", by decide, by decide⟩))).2.1,
    (step_malformed_goto_falls_through ⟨5, ["GOTO 0", "MR", "ML"], 0⟩ 0 "GOTO 0"
      (by decide) (by decide)
      (Or.inr (Or.inr ⟨"0", 0, by decide, by decide, Or.inl (by decide)⟩))).1,
    (step_malformed_goto_falls_through ⟨5, ["GOTO 4", "MR", "ML"], 0⟩ 0 "GOTO 4"
      (by decide) (by decide)
      (Or.inr (Or.inr ⟨"4", 4, by decide, by decide, Or.inr (by decide)⟩))).1⟩

/-- C4 (conditional branch).  If the command at the counter is `IF FLAG`, the step
returns after a single loop iteration with position and program unchanged; the
counter is `pc + 1` when the position equals the marker and `pc + 2` otherwise,
replaced by 0 when that value is at least the length of the program. -/
theorem step_if_flag (fuel : Nat) (r : Robot) (black : Int)
    (hcmd : index r.program r.pc = some "IF FLAG") :
    Robot.step (fuel + 1) r black = StepResult.done
      { pos := r.pos, program := r.program,
        pc := if r.pos = black then
            (if r.pc + 1 ≥ (r.program.length : Int) then 0 else r.pc + 1)
          else (if r.pc + 2 ≥ (r.program.length : Int) then 0 else r.pc + 2) } := by
  rw [step_succ_of_index fuel black hcmd, if_neg (by decide), execTimed_eq,
    if_neg (by decide), if_neg (by decide), if_pos rfl]
  unfold wrapTo
  split_ifs <;> rfl

theorem step_if_flag_witness :
    index ["ML", "IF FLAG", "MR", "GOTO 1"] 1 = some "IF FLAG" ∧
    Robot.step 1 ⟨9, ["ML", "IF FLAG", "MR", "GOTO 1"], 1⟩ 1 =
      StepResult.done ⟨9, ["ML", "IF FLAG", "MR", "GOTO 1"], 3⟩ :=
  ⟨by decide, step_if_flag 0 ⟨9, ["ML", "IF FLAG", "MR", "GOTO 1"], 1⟩ 1 (by decide)⟩

/-- C5, as stated, fails at the two ends of the range of the 64-bit `int`: `ML` at
the least position `-2^63` yields `2^63 - 1`, not `-2^63 - 1`, and `MR` at the
greatest position `2^63 - 1` yields `-2^63`, not `2^63`. -/
theorem step_move_wraps_counterexample :
    Robot.step 1 ⟨-9223372036854775808, ["ML"], 0⟩ 0 =
      StepResult.done ⟨9223372036854775807, ["ML"], 0⟩ ∧
    (9223372036854775807 : Int) ≠ -9223372036854775808 - 1 ∧
    Robot.step 1 ⟨9223372036854775807, ["MR"], 0⟩ 0 =
      StepResult.done ⟨-9223372036854775808, ["MR"], 0⟩ ∧
    (-9223372036854775808 : Int) ≠ 9223372036854775807 + 1 := by
  decide

/-- C5, amended (moves in the 64-bit `int`).  For a robot whose position is an
`int`: if the command at the counter is `ML` (resp. `MR`), the step returns with
position `pos - 1` (resp. `pos + 1`), except that `ML` at `-2^63` gives `2^63 - 1`
and `MR` at `2^63 - 1` gives `-2^63`; the counter is `pc + 1`, replaced by 0 when
`pc + 1` equals the length of the program, and the program is the same. -/
theorem step_move (fuel : Nat) (r : Robot) (black : Int)
    (hmin : -(2 ^ 63 : Int) ≤ r.pos) (hmax : r.pos < 2 ^ 63) :
    (index r.program r.pc = some "ML" →
      Robot.step (fuel + 1) r black = StepResult.done
        { pos := if r.pos = -(2 ^ 63 : Int) then 2 ^ 63 - 1 else r.pos - 1,
          program := r.program,
          pc := if r.pc + 1 = (r.program.length : Int) then 0 else r.pc + 1 }) ∧
    (index r.program r.pc = some "MR" →
      Robot.step (fuel + 1) r black = StepResult.done
        { pos := if r.pos = 2 ^ 63 - 1 then -(2 ^ 63 : Int) else r.pos + 1,
          program := r.program,
          pc := if r.pc + 1 = (r.program.length : Int) then 0 else r.pc + 1 }) := by
  have hml : wrapInt64 (r.pos - 1) =
      if r.pos = -(2 ^ 63 : Int) then 2 ^ 63 - 1 else r.pos - 1 := by
    unfold wrapInt64
    split_ifs <;> omega
  have hmr : wrapInt64 (r.pos + 1) =
      if r.pos = 2 ^ 63 - 1 then -(2 ^ 63 : Int) else r.pos + 1 := by
    unfold wrapInt64
    split_ifs <;> omega
  constructor
  · intro hcmd
    have hlt := (index_eq_some hcmd).2
    rw [step_succ_of_index fuel black hcmd, if_neg (by decide), execTimed_eq, if_pos rfl, hml]
    unfold wrapTo
    congr 2
    split_ifs <;> first | rfl | (exfalso; omega)
  · intro hcmd
    have hlt := (index_eq_some hcmd).2
    rw [step_succ_of_index fuel black hcmd, if_neg (by decide), execTimed_eq,
      if_neg (by decide), if_pos rfl, hmr]
    unfold wrapTo
    congr 2
    split_ifs <;> first | rfl | (exfalso; omega)

theorem step_move_witness :
    (-(2 ^ 63 : Int) ≤ 10 ∧ (10 : Int) < 2 ^ 63) ∧
    Robot.step 1 ⟨10, ["ML", "IF FLAG", "MR", "GOTO 1"], 0⟩ 1 =
      StepResult.done ⟨9, ["ML", "IF FLAG", "MR", "GOTO 1"], 1⟩ ∧
    Robot.step 1 ⟨-15, ["ML", "MR"], 1⟩ 1 = StepResult.done ⟨-14, ["ML", "MR"], 0⟩ ∧
    Robot.step 1 ⟨-9223372036854775808, ["ML"], 0⟩ 1 =
      StepResult.done ⟨9223372036854775807, ["ML"], 0⟩ :=
  ⟨by decide,
    (step_move 0 ⟨10, ["ML", "IF FLAG", "MR", "GOTO 1"], 0⟩ 1 (by decide) (by decide)).1
      (by decide),
    (step_move 0 ⟨-15, ["ML", "MR"], 1⟩ 1 (by decide) (by decide)).2 (by decide),
    (step_move 0 ⟨-9223372036854775808, ["ML"], 0⟩ 1 (by decide) (by decide)).1 (by decide)⟩

/-- C6, as stated, fails: `GOTOX` is none of the four command forms, yet with the
program `[GOTOX, ML]` the step started at `GOTOX` does not stop there.  It skips
the token at no cost (one iteration is not enough to return) and then executes
`ML`: the position goes from 0 to -1 and the counter ends at 0, not at 1. -/
theorem step_unknown_goto_prefix_counterexample :
    index ["GOTOX", "ML"] 0 = some "GOTOX" ∧ Recognized "GOTOX" = false ∧
    Robot.step 1 ⟨0, ["GOTOX", "ML"], 0⟩ 1 = StepResult.outOfFuel ∧
    Robot.step 2 ⟨0, ["GOTOX", "ML"], 0⟩ 1 = StepResult.done ⟨-1, ["GOTOX", "ML"], 0⟩ ∧
    Robot.step 2 ⟨0, ["GOTOX", "ML"], 0⟩ 1 ≠ StepResult.done ⟨0, ["GOTOX", "ML"], 1⟩ := by
  decide

/-- C6, amended: a command that is none of `ML`, `MR`, `IF FLAG` and does not
start with the four characters `GOTO` is a timed no-op.  The step returns after a
single loop iteration with position and program unchanged and counter `pc + 1`,
replaced by 0 when that reaches the length of the program. -/
theorem step_unknown_token (fuel : Nat) (r : Robot) (black : Int) (cmd : String)
    (hcmd : index r.program r.pc = some cmd)
    (hML : cmd ≠ "ML") (hMR : cmd ≠ "MR") (hIF : cmd ≠ "IF FLAG")
    (hgoto : HasPrefix cmd "GOTO" = false) :
    Robot.step (fuel + 1) r black = StepResult.done
      { pos := r.pos, program := r.program,
        pc := if r.pc + 1 = (r.program.length : Int) then 0 else r.pc + 1 } := by
  have hlt := (index_eq_some hcmd).2
  rw [step_succ_of_index fuel black hcmd, if_neg (by simp [hgoto]), execTimed_eq,
    if_neg hML, if_neg hMR, if_neg hIF]
  unfold wrapTo
  split_ifs <;> first | rfl | (exfalso; omega)

theorem step_unknown_token_witness :
    index ["STOP", "ML"] 0 = some "STOP" ∧ HasPrefix "STOP" "GOTO" = false ∧
    Robot.step 1 ⟨4, ["STOP", "ML"], 0⟩ 1 = StepResult.done ⟨4, ["STOP", "ML"], 1⟩ :=
  ⟨by decide, by decide,
    step_unknown_token 0 ⟨4, ["STOP", "ML"], 0⟩ 1 "STOP" (by decide) (by decide) (by decide)
      (by decide) (by decide)⟩

/-! ## The driver: claims C7 to C10 -/

/-- C7 (MET is the first meeting).  If the driver reports a meeting in cell `p` at
time `t`, then `0 ≤ t < maxSteps`, after exactly `t` ticks (a tick being the step
of robot 1 followed by the step of robot 2) both robots are at `p`, and after
every smaller number of ticks, the initial state included, the two positions
differ. -/
theorem met_is_first_meeting (fuel : Nat) (black maxSteps : Int) (r1 r2 : Robot) (p t : Int)
    (h : (simulate fuel black maxSteps r1 r2).outcome = Outcome.met p t) :
    0 ≤ t ∧ t < maxSteps ∧
    (∃ a b, ticks fuel black t.toNat (r1, r2) = some (a, b) ∧ a.pos = p ∧ b.pos = p) ∧
    ∀ s : Nat, s < t.toNat →
      ∃ a b, ticks fuel black s (r1, r2) = some (a, b) ∧ a.pos ≠ b.pos := by
  rw [simulate_eq_loopN] at h
  obtain ⟨n, ht, hn, hmeet, hbefore⟩ := loopN_met fuel black _ _ _ _ _ _ _ h
  have htn : t.toNat = n := by omega
  rw [htn]
  exact ⟨by omega, by omega, hmeet, hbefore⟩

theorem met_is_first_meeting_witness :
    (simulate 1 0 5 ⟨0, ["MR"], 0⟩ ⟨4, ["ML"], 0⟩).outcome = Outcome.met 2 2 ∧
    (∃ a b, ticks 1 0 2 (⟨0, ["MR"], 0⟩, ⟨4, ["ML"], 0⟩) = some (a, b) ∧ a.pos = 2 ∧ b.pos = 2) ∧
    ∀ s : Nat, s < 2 →
      ∃ a b, ticks 1 0 s (⟨0, ["MR"], 0⟩, ⟨4, ["ML"], 0⟩) = some (a, b) ∧ a.pos ≠ b.pos :=
  have hrun : (simulate 1 0 5 ⟨0, ["MR"], 0⟩ ⟨4, ["ML"], 0⟩).outcome = Outcome.met 2 2 := by
    rw [simulate_eq_loopN]
    decide
  have h := met_is_first_meeting 1 0 5 ⟨0, ["MR"], 0⟩ ⟨4, ["ML"], 0⟩ 2 2 hrun
  ⟨hrun, h.2.2.1, h.2.2.2⟩

/-- C8, as stated, fails.  With `maxSteps = 1`, robot 1 at 0 running `[MR]` and
robot 2 at 2 running `[ML]`, the single tick brings both robots to cell 1, the
record of that tick shows them together, and the driver ends with the
no-meeting report: the positions are different after tick 0 only, not after
tick 1 = `maxSteps`. -/
theorem not_met_reported_after_meeting_at_bound :
    simulate 1 0 1 ⟨0, ["MR"], 0⟩ ⟨2, ["ML"], 0⟩ =
      ⟨Outcome.notMet, ⟨1, ["MR"], 0⟩, ⟨1, ["ML"], 0⟩, [⟨1, 1, 1⟩]⟩ ∧
    ticks 1 0 1 (⟨0, ["MR"], 0⟩, ⟨2, ["ML"], 0⟩) = some (⟨1, ["MR"], 0⟩, ⟨1, ["ML"], 0⟩) := by
  rw [simulate_eq_loopN]
  decide

/-- C8, amended (EXHAUSTED means no meeting before the bound).  If the driver ends
with the no-meeting report, then the loop ran to its bound: all `maxSteps` ticks
(none when `maxSteps ≤ 0`) were executed, leaving the robots in the state the
run ends with, and the two positions were different after every number of
ticks `s` with `0 ≤ s < maxSteps`. -/
theorem not_met_means_no_meeting_before_bound (fuel : Nat) (black maxSteps : Int)
    (r1 r2 : Robot) (h : (simulate fuel black maxSteps r1 r2).outcome = Outcome.notMet) :
    ticks fuel black maxSteps.toNat (r1, r2) =
        some ((simulate fuel black maxSteps r1 r2).robot1,
          (simulate fuel black maxSteps r1 r2).robot2) ∧
    ∀ s : Nat, (s : Int) < maxSteps →
      ∃ a b, ticks fuel black s (r1, r2) = some (a, b) ∧ a.pos ≠ b.pos := by
  rw [simulate_eq_loopN] at h ⊢
  obtain ⟨hend, hbefore⟩ := loopN_notMet fuel black _ _ _ _ _ h
  exact ⟨hend, fun s hs => hbefore s (by omega)⟩

theorem not_met_means_no_meeting_before_bound_witness :
    (simulate 1 0 2 ⟨0, ["MR"], 0⟩ ⟨5, ["ML"], 0⟩).outcome = Outcome.notMet ∧
    ticks 1 0 2 (⟨0, ["MR"], 0⟩, ⟨5, ["ML"], 0⟩) = some (⟨2, ["MR"], 0⟩, ⟨3, ["ML"], 0⟩) ∧
    ∀ s : Nat, (s : Int) < 2 →
      ∃ a b, ticks 1 0 s (⟨0, ["MR"], 0⟩, ⟨5, ["ML"], 0⟩) = some (a, b) ∧ a.pos ≠ b.pos :=
  have hrun : (simulate 1 0 2 ⟨0, ["MR"], 0⟩ ⟨5, ["ML"], 0⟩).outcome = Outcome.notMet := by
    rw [simulate_eq_loopN]
    decide
  ⟨hrun, by decide,
    (not_met_means_no_meeting_before_bound 1 0 2 ⟨0, ["MR"], 0⟩ ⟨5, ["ML"], 0⟩ hrun).2⟩

/-- C9, as stated, fails for `maxSteps = 0`: the loop body, and with it the
comparison of the positions, is never entered, and two robots that start in the
same cell 5 get the no-meeting report instead of a meeting at time 0. -/
theorem equal_start_not_met_with_zero_bound :
    simulate 1 0 0 ⟨5, ["ML"], 0⟩ ⟨5, ["MR"], 0⟩ =
      ⟨Outcome.notMet, ⟨5, ["ML"], 0⟩, ⟨5, ["MR"], 0⟩, []⟩ := by
  rw [simulate_eq_loopN]
  decide

/-- C9, amended (Scenario B).  For every bound of at least one, two robots with
equal starting positions, whatever their programs and the marker, are reported
as met at time 0 in their common cell; no step is made (both robots are as they
were, whatever the fuel) and no record is printed. -/
theorem equal_start_meets_at_time_zero (fuel : Nat) (black maxSteps : Int) (r1 r2 : Robot)
    (hmax : 1 ≤ maxSteps) (hpos : r1.pos = r2.pos) :
    simulate fuel black maxSteps r1 r2 = ⟨Outcome.met r1.pos 0, r1, r2, []⟩ := by
  obtain ⟨k, hk⟩ : ∃ k, maxSteps.toNat = k + 1 := ⟨maxSteps.toNat - 1, by omega⟩
  rw [simulate_eq_loopN, hk, loopN, if_pos hpos]

theorem equal_start_meets_at_time_zero_witness :
    (1 : Int) ≤ 1000 ∧ (7 : Int) = 7 ∧
    simulate 0 1 1000 ⟨7, ["ML", "IF FLAG", "MR", "GOTO 1"], 0⟩ ⟨7, [], 3⟩ =
      ⟨Outcome.met 7 0, ⟨7, ["ML", "IF FLAG", "MR", "GOTO 1"], 0⟩, ⟨7, [], 3⟩, []⟩ :=
  ⟨by decide, rfl,
    equal_start_meets_at_time_zero 0 1 1000 ⟨7, ["ML", "IF FLAG", "MR", "GOTO 1"], 0⟩
      ⟨7, [], 3⟩ (by decide) rfl⟩

/-- C10 (Scenario D).  With `maxSteps = 0` and different starting positions the
driver reports no meeting at once: no step is made (both robots are as they
were, whatever the fuel) and no record is printed. -/
theorem zero_bound_reports_not_met (fuel : Nat) (black : Int) (r1 r2 : Robot)
    (_hpos : r1.pos ≠ r2.pos) :
    simulate fuel black 0 r1 r2 = ⟨Outcome.notMet, r1, r2, []⟩ := by
  unfold simulate
  rw [mainLoop, if_neg (lt_irrefl 0)]

theorem zero_bound_reports_not_met_witness :
    (10 : Int) ≠ -15 ∧
    simulate 0 1 0 ⟨10, ["ML", "IF FLAG", "MR", "GOTO 1"], 0⟩
        ⟨-15, ["MR", "IF FLAG", "ML", "GOTO 1"], 0⟩ =
      ⟨Outcome.notMet, ⟨10, ["ML", "IF FLAG", "MR", "GOTO 1"], 0⟩,
        ⟨-15, ["MR", "IF FLAG", "ML", "GOTO 1"], 0⟩, []⟩ :=
  ⟨by decide,
    zero_bound_reports_not_met 0 1 ⟨10, ["ML", "IF FLAG", "MR", "GOTO 1"], 0⟩
      ⟨-15, ["MR", "IF FLAG", "ML", "GOTO 1"], 0⟩ (by decide)⟩

/-! ## Claims C11 to C14 and C17 to C20 -/

/-- C11 (Scenario A).  The configuration hard-coded in `main` (marker 1, robot 1 at
10 running `[ML, IF FLAG, MR, GOTO 1]`, robot 2 at -15 running
`[MR, IF FLAG, ML, GOTO 1]`, counters 0, bound 1000) ends with the MET outcome in
cell 1, the marker cell, at time 32, below the bound, with both robots at
position 1 and 32 records printed.  Two loop iterations per step are enough,
and more change nothing. -/
theorem main_meets_at_marker (fuel : Nat) :
    (main (fuel + 2)).outcome = Outcome.met 1 32 ∧
    (main (fuel + 2)).robot1.pos = 1 ∧ (main (fuel + 2)).robot2.pos = 1 ∧
    (main (fuel + 2)).records.length = 32 ∧ (32 : Int) < 1000 := by
  have h : main (fuel + 2) = loopN 2 1 1000 0 ⟨10, ["ML", "IF FLAG", "MR", "GOTO 1"], 0⟩
      ⟨-15, ["MR", "IF FLAG", "ML", "GOTO 1"], 0⟩ [] := by
    unfold main
    rw [simulate_eq_loopN]
    exact loopN_fuel_le (Nat.le_add_left 2 fuel) 1 1000 0 _ _ [] (by decide)
  rw [h]
  decide

/-- C12 (symmetry).  Exchanging the two robots exchanges the results of every tick.
Hence a run that reports a meeting or no meeting is mirrored by the run with the
robots exchanged: same outcome (same cell and time of the meeting, or no
meeting in both), with the robots and the two position columns swapped. -/
theorem simulate_swap (fuel : Nat) (black maxSteps : Int) (r1 r2 : Robot) :
    tick fuel black (r2, r1) = (tick fuel black (r1, r2)).map Prod.swap ∧
    ((simulate fuel black maxSteps r1 r2).outcome.reported = true →
      simulate fuel black maxSteps r2 r1 = (simulate fuel black maxSteps r1 r2).swap) ∧
    (∀ p t, (simulate fuel black maxSteps r2 r1).outcome = Outcome.met p t ↔
      (simulate fuel black maxSteps r1 r2).outcome = Outcome.met p t) ∧
    ((simulate fuel black maxSteps r2 r1).outcome = Outcome.notMet ↔
      (simulate fuel black maxSteps r1 r2).outcome = Outcome.notMet) := by
  have key : ∀ a b : Robot, (simulate fuel black maxSteps a b).outcome.reported = true →
      simulate fuel black maxSteps b a = (simulate fuel black maxSteps a b).swap := by
    intro a b h
    rw [simulate_eq_loopN] at h ⊢
    rw [simulate_eq_loopN]
    exact loopN_swap fuel black _ 0 a b [] h
  have out : ∀ (a b : Robot) (o : Outcome), o.reported = true →
      (simulate fuel black maxSteps a b).outcome = o →
      (simulate fuel black maxSteps b a).outcome = o := by
    intro a b o ho h
    rw [key a b (by rw [h]; exact ho)]
    exact h
  exact ⟨tick_swap fuel black r1 r2, key r1 r2,
    fun p t => ⟨out r2 r1 _ rfl, out r1 r2 _ rfl⟩, ⟨out r2 r1 _ rfl, out r1 r2 _ rfl⟩⟩

theorem simulate_swap_witness :
    (simulate 1 0 5 ⟨0, ["MR"], 0⟩ ⟨4, ["ML"], 0⟩).outcome.reported = true ∧
    simulate 1 0 5 ⟨4, ["ML"], 0⟩ ⟨0, ["MR"], 0⟩ =
      (simulate 1 0 5 ⟨0, ["MR"], 0⟩ ⟨4, ["ML"], 0⟩).swap :=
  have hrun : (simulate 1 0 5 ⟨0, ["MR"], 0⟩ ⟨4, ["ML"], 0⟩).outcome.reported = true := by
    rw [simulate_eq_loopN]
    decide
  ⟨hrun, (simulate_swap 1 0 5 ⟨0, ["MR"], 0⟩ ⟨4, ["ML"], 0⟩).2.1 hrun⟩

/-- C13, as stated, fails: nothing rejects an empty program.  With equal starting
positions the driver reports a meeting at time 0 although robot 1 has no
program; with different positions and an empty program for robot 2, robot 1
makes a step before the step of robot 2 panics. -/
theorem empty_program_not_rejected :
    simulate 1 0 1000 ⟨3, [], 0⟩ ⟨3, ["ML"], 0⟩ =
      ⟨Outcome.met 3 0, ⟨3, [], 0⟩, ⟨3, ["ML"], 0⟩, []⟩ ∧
    simulate 1 0 1000 ⟨0, ["MR"], 0⟩ ⟨5, [], 0⟩ =
      ⟨Outcome.indexPanic, ⟨1, ["MR"], 0⟩, ⟨5, [], 0⟩, []⟩ := by
  rw [simulate_eq_loopN, simulate_eq_loopN]
  decide

/-- C13, amended: an empty program is not rejected before the simulation.  With a
bound of at least one and different starting positions, a configuration in
which a program is empty never gets a MET or EXHAUSTED report and no record is
printed.  If the program of robot 1 is empty, the run ends with the index panic
of its first step, before any step has returned: robot 2 is untouched and
robot 1 is as the guard at the top of the loop left it (counter reset to 0
unless negative).  If the program of robot 2 is empty and the first step of
robot 1 returns, the run ends with the index panic of the first step of
robot 2: robot 1 has made that one step and robot 2 is as the guard left it. -/
theorem empty_program_panics_in_first_tick (black maxSteps : Int) (r1 r2 : Robot)
    (hmax : 1 ≤ maxSteps) (hpos : r1.pos ≠ r2.pos)
    (hempty : r1.program = [] ∨ r2.program = []) :
    (∀ fuel, (simulate fuel black maxSteps r1 r2).outcome.reported = false ∧
      (simulate fuel black maxSteps r1 r2).records = []) ∧
    (r1.program = [] → ∀ fuel,
      simulate (fuel + 1) black maxSteps r1 r2 = ⟨Outcome.indexPanic, wrap r1, r2, []⟩) ∧
    (r2.program = [] → ∀ fuel a, Robot.step fuel r1 black = StepResult.done a →
      simulate fuel black maxSteps r1 r2 = ⟨Outcome.indexPanic, a, wrap r2, []⟩) := by
  obtain ⟨k, hk⟩ : ∃ k, maxSteps.toNat = k + 1 := ⟨maxSteps.toNat - 1, by omega⟩
  refine ⟨?_, ?_, ?_⟩
  · intro fuel
    rw [simulate_eq_loopN, hk, loopN, if_neg hpos]
    cases h1 : Robot.step fuel r1 black with
    | indexPanic => exact ⟨rfl, rfl⟩
    | outOfFuel => exact ⟨rfl, rfl⟩
    | done a =>
      simp only
      cases h2 : Robot.step fuel r2 black with
      | indexPanic => exact ⟨rfl, rfl⟩
      | outOfFuel => exact ⟨rfl, rfl⟩
      | done b =>
        rcases hempty with he | he
        · exact absurd h1 (step_ne_done_of_empty fuel r1 a black he)
        · exact absurd h2 (step_ne_done_of_empty fuel r2 b black he)
  · intro he fuel
    have hp := step_indexPanic_of_bad fuel r1 black (Or.inl he)
    rw [simulate_eq_loopN, hk, loopN, if_neg hpos, hp]
    simp only
    rw [stopState_of_indexPanic (fuel + 1) r1 black hp]
  · intro he fuel a h1
    rw [simulate_eq_loopN, hk, loopN, if_neg hpos, h1]
    cases fuel with
    | zero => simp [Robot.step] at h1
    | succ f =>
      have hp := step_indexPanic_of_bad f r2 black (Or.inl he)
      simp only
      rw [hp]
      simp only
      rw [stopState_of_indexPanic (f + 1) r2 black hp]

theorem empty_program_panics_in_first_tick_witness :
    (∀ fuel, simulate (fuel + 1) 0 1000 ⟨0, [], 5⟩ ⟨5, ["ML"], 0⟩ =
      ⟨Outcome.indexPanic, ⟨0, [], 0⟩, ⟨5, ["ML"], 0⟩, []⟩) ∧
    simulate 1 0 1000 ⟨0, ["MR"], 0⟩ ⟨5, [], 4⟩ =
      ⟨Outcome.indexPanic, ⟨1, ["MR"], 0⟩, ⟨5, [], 0⟩, []⟩ :=
  ⟨(empty_program_panics_in_first_tick 0 1000 ⟨0, [], 5⟩ ⟨5, ["ML"], 0⟩ (by decide) (by decide)
      (Or.inl rfl)).2.1 rfl,
    (empty_program_panics_in_first_tick 0 1000 ⟨0, ["MR"], 0⟩ ⟨5, [], 4⟩ (by decide) (by decide)
      (Or.inr rfl)).2.2 rfl 1 ⟨1, ["MR"], 0⟩ (by decide)⟩

/-- C14 (jump-only programs).  If the program is not empty and every command starts
with `GOTO`, then from every position, every counter that is not negative and
for every marker the loop of `step` is still running after any number of
iterations: the step neither returns nor panics. -/
theorem step_jump_only_diverges (r : Robot) (black : Int)
    (hne : r.program ≠ []) (hall : ∀ cmd ∈ r.program, HasPrefix cmd "GOTO" = true)
    (hpc : 0 ≤ r.pc) :
    Robot.Diverges r black ∧ (∀ r', ¬ Robot.Returns r black r') ∧
    ∀ n, Robot.step n r black ≠ StepResult.indexPanic := by
  have h : ∀ fuel, Robot.step fuel r black = StepResult.outOfFuel :=
    fun fuel => step_outOfFuel_of_all_goto black fuel r hne hall hpc
  refine ⟨h, ?_, ?_⟩
  · rintro r' ⟨fuel, hf⟩
    rw [h fuel] at hf
    exact absurd hf (by simp)
  · intro n hn
    rw [h n] at hn
    exact absurd hn (by simp)

theorem step_jump_only_diverges_witness :
    Robot.Diverges ⟨7, ["GOTO 1"], 0⟩ 3 ∧ Robot.Diverges ⟨7, ["GOTO 2", "GOTO", "GOTO x"], 5⟩ 3 :=
  ⟨(step_jump_only_diverges ⟨7, ["GOTO 1"], 0⟩ 3 (by decide) (by decide) (by decide)).1,
    (step_jump_only_diverges ⟨7, ["GOTO 2", "GOTO", "GOTO x"], 5⟩ 3 (by decide) (by decide)
      (by decide)).1⟩

/-- C17 (branch on the last line).  If the last command of the program is `IF FLAG`
and the counter is at that last index, the step returns with the counter 0 and
the position unchanged, whether or not the position equals the marker. -/
theorem step_if_flag_on_last_line (fuel : Nat) (r : Robot) (black : Int)
    (hcmd : index r.program r.pc = some "IF FLAG")
    (hlast : r.pc = (r.program.length : Int) - 1) :
    Robot.step (fuel + 1) r black =
      StepResult.done { pos := r.pos, program := r.program, pc := 0 } := by
  rw [step_succ_of_index fuel black hcmd, if_neg (by decide), execTimed_eq,
    if_neg (by decide), if_neg (by decide), if_pos rfl]
  unfold wrapTo
  split_ifs <;> first | rfl | (exfalso; omega)

theorem step_if_flag_on_last_line_witness :
    Robot.step 1 ⟨1, ["ML", "IF FLAG"], 1⟩ 1 = StepResult.done ⟨1, ["ML", "IF FLAG"], 0⟩ ∧
    Robot.step 1 ⟨5, ["ML", "IF FLAG"], 1⟩ 1 = StepResult.done ⟨5, ["ML", "IF FLAG"], 0⟩ :=
  ⟨step_if_flag_on_last_line 0 ⟨1, ["ML", "IF FLAG"], 1⟩ 1 (by decide) (by decide),
    step_if_flag_on_last_line 0 ⟨5, ["ML", "IF FLAG"], 1⟩ 1 (by decide) (by decide)⟩

/-- C18 (index safety).  With a non-empty program and a counter that is not negative,
also one at or past the end of the program, no read `program[pc]` of `step` is
out of range, in the loop or after it, however long the loop runs.  A panic
therefore needs an empty program or a negative counter, and in both cases the
very first read panics. -/
theorem step_index_safe (r : Robot) (black : Int) :
    (r.program ≠ [] → 0 ≤ r.pc → ∀ fuel, Robot.step fuel r black ≠ StepResult.indexPanic) ∧
    (∀ fuel, Robot.step fuel r black = StepResult.indexPanic → r.program = [] ∨ r.pc < 0) ∧
    (r.program = [] ∨ r.pc < 0 → ∀ fuel, Robot.step (fuel + 1) r black = StepResult.indexPanic) := by
  refine ⟨fun hne h0 fuel => step_ne_indexPanic fuel r black hne h0, ?_,
    fun h fuel => step_indexPanic_of_bad fuel r black h⟩
  intro fuel hp
  by_contra hcon
  push_neg at hcon
  exact step_ne_indexPanic fuel r black hcon.1 hcon.2 hp

theorem step_index_safe_witness :
    (∀ fuel, Robot.step fuel ⟨0, ["GOTO 2", "ML"], 9⟩ 0 ≠ StepResult.indexPanic) ∧
    (∀ fuel, Robot.step (fuel + 1) ⟨0, [], 0⟩ 0 = StepResult.indexPanic) ∧
    (∀ fuel, Robot.step (fuel + 1) ⟨0, ["ML"], -1⟩ 0 = StepResult.indexPanic) :=
  ⟨(step_index_safe ⟨0, ["GOTO 2", "ML"], 9⟩ 0).1 (by decide) (by decide),
    (step_index_safe ⟨0, [], 0⟩ 0).2.2 (Or.inl rfl),
    (step_index_safe ⟨0, ["ML"], -1⟩ 0).2.2 (Or.inr (by decide))⟩

/-- C19 (resolution within `len(program)` hops, or never).  For a robot with a
non-empty program and a counter that is not negative: if `step` returns, its loop
processed some number `h ≤ len(program) - 1` of `GOTO` commands before reaching
the timed command, reading `h + 1` pairwise different counters on the way.
Hence a step whose loop is cut off after `cap ≥ len(program)` iterations (a cap
of `len(program)` hops is `len(program) + 1` iterations) returns what the
uncapped step returns, and it hits the cap exactly when the uncapped step
runs forever. -/
theorem step_resolves_within_length (r : Robot) (black : Int)
    (hne : r.program ≠ []) (hpc : 0 ≤ r.pc) :
    (∀ r', Robot.Returns r black r' →
      ∃ h, h + 1 ≤ r.program.length ∧ Robot.Hops r black h ∧
        Robot.step (h + 1) r black = StepResult.done r' ∧
        (Robot.visited (h + 1) r).length = h + 1 ∧ (Robot.visited (h + 1) r).Nodup) ∧
    (∀ cap r', r.program.length ≤ cap → Robot.Returns r black r' →
      Robot.step cap r black = StepResult.done r') ∧
    (∀ cap, r.program.length ≤ cap →
      (Robot.step cap r black = StepResult.outOfFuel ↔ Robot.Diverges r black)) := by
  have key : ∀ r', Robot.Returns r black r' →
      ∃ h, h + 1 ≤ r.program.length ∧ Robot.Hops r black h ∧
        Robot.step (h + 1) r black = StepResult.done r' ∧
        (Robot.visited (h + 1) r).length = h + 1 ∧ (Robot.visited (h + 1) r).Nodup := by
    intro r' hret
    obtain ⟨fuel, hf⟩ := hret
    obtain ⟨h, _, hh⟩ := Hops_of_done black fuel r r' hf
    obtain ⟨hlen, hmem, hnd⟩ := visited_of_Hops black h r hne hpc hh
    have hle := length_le_of_nodup_range hnd (fun x hx => ⟨(hmem x hx).1, (hmem x hx).2.1⟩)
    rw [hlen] at hle
    obtain ⟨a, ha⟩ := hh.1
    have hra : a = r' := Returns_unique ⟨h + 1, ha⟩ ⟨fuel, hf⟩
    rw [hra] at ha
    exact ⟨h, hle, hh, ha, hlen, hnd⟩
  have capped : ∀ cap r', r.program.length ≤ cap → Robot.Returns r black r' →
      Robot.step cap r black = StepResult.done r' := by
    intro cap r' hcap hret
    obtain ⟨h, hle, _, hstep, _, _⟩ := key r' hret
    rw [step_fuel_le (le_trans hle hcap) r black (by rw [hstep]; simp), hstep]
  refine ⟨key, capped, ?_⟩
  intro cap hcap
  constructor
  · intro hout fuel
    cases hf : Robot.step fuel r black with
    | outOfFuel => rfl
    | indexPanic => exact absurd hf (step_ne_indexPanic fuel r black hne hpc)
    | done r' =>
      rw [capped cap r' hcap ⟨fuel, hf⟩] at hout
      exact absurd hout (by simp)
  · intro hdiv
    exact hdiv cap

theorem step_resolves_within_length_witness :
    Robot.step 3 ⟨0, ["GOTO 3", "ML", "GOTO 2"], 0⟩ 0 =
      StepResult.done ⟨-1, ["GOTO 3", "ML", "GOTO 2"], 2⟩ ∧
    (Robot.step 3 ⟨0, ["GOTO 2", "GOTO 1", "ML"], 0⟩ 0 = StepResult.outOfFuel ↔
      Robot.Diverges ⟨0, ["GOTO 2", "GOTO 1", "ML"], 0⟩ 0) :=
  ⟨(step_resolves_within_length ⟨0, ["GOTO 3", "ML", "GOTO 2"], 0⟩ 0 (by decide) (by decide)).2.1
      3 ⟨-1, ["GOTO 3", "ML", "GOTO 2"], 2⟩ (by decide) ⟨3, by decide⟩,
    (step_resolves_within_length ⟨0, ["GOTO 2", "GOTO 1", "ML"], 0⟩ 0 (by decide)
      (by decide)).2.2 3 (by decide)⟩

/-- C20, as stated, fails at the ends of the range of the 64-bit `int`.  `MR` at
`2^63 - 1` puts the robot at `-2^63`, a change of `2^64 - 1` cells; and robot 1 at
`2^63 - 1` running `[MR]` meets robot 2, standing at `-2^63`, at time 1, although
the two started `2^64 - 1` cells apart. -/
theorem speed_limit_wraps_counterexample :
    Robot.step 1 ⟨9223372036854775807, ["MR"], 0⟩ 0 =
      StepResult.done ⟨-9223372036854775808, ["MR"], 0⟩ ∧
    ¬ |(-9223372036854775808 : Int) - 9223372036854775807| ≤ 1 ∧
    (simulate 1 0 5 ⟨9223372036854775807, ["MR"], 0⟩
      ⟨-9223372036854775808, ["IF FLAG"], 0⟩).outcome = Outcome.met (-9223372036854775808) 1 ∧
    ¬ |(9223372036854775807 : Int) - -9223372036854775808| ≤ 2 * 1 := by
  rw [simulate_eq_loopN]
  decide

/-- C20, amended (speed limit in the 64-bit `int`).  A step that returns changes the
position, an `int`, by at most 1 in absolute value, except that it may take the
robot from `-2^63` to `2^63 - 1` or from `2^63 - 1` to `-2^63`.
Consequently, if the driver reports a meeting in cell `p` at time `t` for
robots that started at positions `p1` and `p2`, both an `int`, then `p` is `p1 + d1`
and also `p2 + d2` reduced into the range of `int`, for some `d1` and `d2` of
absolute value at most `t`; and if `p1` and `p2` lie at least `t` cells inside the
range (`-2^63 + t ≤ p1, p2 ≤ 2^63 - 1 - t`), then `|p1 - p2| ≤ 2 t`,
`|p - p1| ≤ t` and `|p - p2| ≤ t`. -/
theorem speed_limit (black : Int) :
    (∀ r r' : Robot, -(2 ^ 63 : Int) ≤ r.pos → r.pos < 2 ^ 63 → Robot.Returns r black r' →
      |r'.pos - r.pos| ≤ 1 ∨ (r.pos = -(2 ^ 63 : Int) ∧ r'.pos = 2 ^ 63 - 1) ∨
        (r.pos = 2 ^ 63 - 1 ∧ r'.pos = -(2 ^ 63 : Int))) ∧
    (∀ (fuel : Nat) (maxSteps : Int) (r1 r2 : Robot) (p t : Int),
      (simulate fuel black maxSteps r1 r2).outcome = Outcome.met p t →
      -(2 ^ 63 : Int) ≤ r1.pos → r1.pos < 2 ^ 63 →
      -(2 ^ 63 : Int) ≤ r2.pos → r2.pos < 2 ^ 63 →
      ∃ d1 d2 : Int, |d1| ≤ t ∧ |d2| ≤ t ∧
        p = wrapInt64 (r1.pos + d1) ∧ p = wrapInt64 (r2.pos + d2)) ∧
    (∀ (fuel : Nat) (maxSteps : Int) (r1 r2 : Robot) (p t : Int),
      (simulate fuel black maxSteps r1 r2).outcome = Outcome.met p t →
      -(2 ^ 63 : Int) + t ≤ r1.pos → r1.pos ≤ 2 ^ 63 - 1 - t →
      -(2 ^ 63 : Int) + t ≤ r2.pos → r2.pos ≤ 2 ^ 63 - 1 - t →
      |r1.pos - r2.pos| ≤ 2 * t ∧ |p - r1.pos| ≤ t ∧ |p - r2.pos| ≤ t) := by
  refine ⟨?_, ?_, ?_⟩
  · rintro r r' h0 h1 ⟨fuel, hf⟩
    rcases step_pos_change black fuel r r' hf with hc | hc | hc
    · left
      rw [hc]
      simp
    · rw [hc]
      unfold wrapInt64
      by_cases hmin : r.pos = -(2 ^ 63 : Int)
      · right
        left
        exact ⟨hmin, by omega⟩
      · left
        rw [abs_le]
        constructor <;> omega
    · rw [hc]
      unfold wrapInt64
      by_cases hmax : r.pos = 2 ^ 63 - 1
      · right
        right
        exact ⟨hmax, by omega⟩
      · left
        rw [abs_le]
        constructor <;> omega
  · intro fuel maxSteps r1 r2 p t h h1lo h1hi h2lo h2hi
    rw [simulate_eq_loopN] at h
    obtain ⟨n, ht, _, ⟨x, y, hxy, hx, hy⟩, _⟩ := loopN_met fuel black _ _ _ _ _ _ _ h
    have htn : t = n := by omega
    obtain ⟨h1, h2⟩ := ticks_pos_wrap fuel black n r1 r2 x y hxy
    obtain ⟨d1, hd1, hp1⟩ := h1 h1lo h1hi
    obtain ⟨d2, hd2, hp2⟩ := h2 h2lo h2hi
    rw [hx] at hp1
    rw [hy] at hp2
    rw [htn]
    exact ⟨d1, d2, hd1, hd2, hp1, hp2⟩
  · intro fuel maxSteps r1 r2 p t h h1lo h1hi h2lo h2hi
    rw [simulate_eq_loopN] at h
    obtain ⟨n, ht, _, ⟨x, y, hxy, hx, hy⟩, _⟩ := loopN_met fuel black _ _ _ _ _ _ _ h
    have htn : t = n := by omega
    rw [htn] at h1lo h1hi h2lo h2hi ⊢
    obtain ⟨h1, h2⟩ := ticks_pos_change fuel black n r1 r2 x y hxy
    have h1' := h1 h1lo h1hi
    have h2' := h2 h2lo h2hi
    rw [hx] at h1'
    rw [hy] at h2'
    rw [abs_le] at h1' h2' ⊢
    rw [abs_le, abs_le]
    refine ⟨⟨by omega, by omega⟩, ⟨by omega, by omega⟩, ⟨by omega, by omega⟩⟩

theorem speed_limit_witness :
    Robot.Returns ⟨10, ["ML", "IF FLAG", "MR", "GOTO 1"], 3⟩ 1
      ⟨9, ["ML", "IF FLAG", "MR", "GOTO 1"], 1⟩ ∧
    (|(9 : Int) - 10| ≤ 1 ∨ ((10 : Int) = -(2 ^ 63 : Int) ∧ (9 : Int) = 2 ^ 63 - 1) ∨
      ((10 : Int) = 2 ^ 63 - 1 ∧ (9 : Int) = -(2 ^ 63 : Int))) ∧
    (simulate 1 0 5 ⟨0, ["MR"], 0⟩ ⟨4, ["ML"], 0⟩).outcome = Outcome.met 2 2 ∧
    (∃ d1 d2 : Int, |d1| ≤ 2 ∧ |d2| ≤ 2 ∧
      (2 : Int) = wrapInt64 (0 + d1) ∧ (2 : Int) = wrapInt64 (4 + d2)) ∧
    |(0 : Int) - 4| ≤ 2 * 2 ∧ |(2 : Int) - 0| ≤ 2 ∧ |(2 : Int) - 4| ≤ 2 :=
  have hret : Robot.Returns ⟨10, ["ML", "IF FLAG", "MR", "GOTO 1"], 3⟩ 1
      ⟨9, ["ML", "IF FLAG", "MR", "GOTO 1"], 1⟩ := ⟨2, by decide⟩
  have hrun : (simulate 1 0 5 ⟨0, ["MR"], 0⟩ ⟨4, ["ML"], 0⟩).outcome = Outcome.met 2 2 := by
    rw [simulate_eq_loopN]
    decide
  have h := (speed_limit 0).2.2 1 5 ⟨0, ["MR"], 0⟩ ⟨4, ["ML"], 0⟩ 2 2 hrun
    (by decide) (by decide) (by decide) (by decide)
  ⟨hret, (speed_limit 1).1 _ _ (by decide) (by decide) hret, hrun,
    (speed_limit 0).2.1 1 5 ⟨0, ["MR"], 0⟩ ⟨4, ["ML"], 0⟩ 2 2 hrun
      (by decide) (by decide) (by decide) (by decide),
    h.1, h.2.1, h.2.2⟩

end TaskFirst

/-! ## The currency rates: claims C15 and C16 -/

namespace TaskThird

open TaskFirst (Atoi IsSpace)

theorem convertStep_eq (ops : Float64Ops) (date : String) (rates : List CurrencyRate)
    (v : Valute) :
    convertStep ops date rates v =
      rates ++ (if Qualifies ops v then [rateOf ops date v] else []) := by
  unfold convertStep Qualifies rateOf
  cases hN : Atoi (TrimSpace v.Nominal) with
  | none => simp
  | some n =>
    by_cases hn : n = 0
    · simp [hn]
    · cases hV : ops.ParseFloat (commaToDot (TrimSpace v.Value)) with
      | none => simp [hn]
      | some x => simp [hn]

theorem foldl_convertStep (ops : Float64Ops) (date : String) :
    ∀ (vs : List Valute) (rates : List CurrencyRate),
      vs.foldl (convertStep ops date) rates =
        rates ++ (vs.filter (Qualifies ops)).map (rateOf ops date) := by
  intro vs
  induction vs with
  | nil => intro rates; simp
  | cons v vs ih =>
    intro rates
    rw [List.foldl_cons, ih, convertStep_eq]
    by_cases hq : Qualifies ops v = true
    · simp [hq, List.filter_cons]
    · simp [hq, List.filter_cons]

theorem Float64.lt_irrefl (a : Float64) : Float64.lt a a = false := by
  cases a <;> simp [Float64.lt]

theorem Float64.ge_refl {a : Float64} (h : a ≠ Float64.nan) : Float64.ge a a = true := by
  cases a with
  | nan => exact absurd rfl h
  | num x => simp [Float64.ge]

theorem Float64.ge_of_lt {a b : Float64} (h : Float64.lt a b = true) :
    Float64.ge b a = true := by
  cases a <;> cases b <;> simp_all [Float64.lt, Float64.ge]
  exact le_of_lt h

theorem Float64.eq_false_of_lt {a b : Float64} (h : Float64.lt a b = true) :
    Float64.eq a b = false := by
  cases a <;> cases b <;> simp_all [Float64.lt, Float64.eq]
  exact ne_of_lt h

theorem Float64.ge_of_not_lt {a b : Float64} (ha : a ≠ Float64.nan) (hb : b ≠ Float64.nan)
    (h : Float64.lt a b = false) : Float64.ge a b = true := by
  cases a with
  | nan => exact absurd rfl ha
  | num x =>
    cases b with
    | nan => exact absurd rfl hb
    | num y => simpa [Float64.lt, Float64.ge] using h

theorem Float64.lt_of_ge_of_lt {a b c : Float64} (h1 : Float64.ge b a = true)
    (h2 : Float64.lt b c = true) : Float64.lt a c = true := by
  cases a <;> cases b <;> cases c <;> simp_all [Float64.lt, Float64.ge]
  exact lt_of_le_of_lt h1 h2

theorem Float64.ge_trans {a b c : Float64} (h1 : Float64.ge a b = true)
    (h2 : Float64.ge b c = true) : Float64.ge a c = true := by
  cases a <;> cases b <;> cases c <;> simp_all [Float64.ge]
  exact le_trans h2 h1

theorem extremesStep_max (e : Extremes) (r : CurrencyRate) :
    (Float64.gt r.Rate e.maxRate = true →
      (extremesStep e r).maxRate = r.Rate ∧ (extremesStep e r).maxCurrency = r.Currency ∧
        (extremesStep e r).maxDate = r.Date) ∧
    (Float64.gt r.Rate e.maxRate = false →
      (extremesStep e r).maxRate = e.maxRate ∧ (extremesStep e r).maxCurrency = e.maxCurrency ∧
        (extremesStep e r).maxDate = e.maxDate) := by
  unfold extremesStep
  by_cases hg : Float64.gt r.Rate e.maxRate = true <;>
    by_cases hl : Float64.lt r.Rate e.minRate = true <;> simp [hg, hl]

theorem extremesStep_min (e : Extremes) (r : CurrencyRate) :
    (Float64.lt r.Rate e.minRate = true →
      (extremesStep e r).minRate = r.Rate ∧ (extremesStep e r).minCurrency = r.Currency ∧
        (extremesStep e r).minDate = r.Date) ∧
    (Float64.lt r.Rate e.minRate = false →
      (extremesStep e r).minRate = e.minRate ∧ (extremesStep e r).minCurrency = e.minCurrency ∧
        (extremesStep e r).minDate = e.minDate) := by
  unfold extremesStep
  by_cases hg : Float64.gt r.Rate e.maxRate = true <;>
    by_cases hl : Float64.lt r.Rate e.minRate = true <;> simp [hg, hl]

theorem Float64.lt_of_lt_of_ge {a b c : Float64} (h1 : Float64.lt a b = true)
    (h2 : Float64.ge c b = true) : Float64.lt a c = true := by
  cases a <;> cases b <;> cases c <;> simp_all [Float64.lt, Float64.ge]
  exact lt_of_lt_of_le h1 h2

theorem MaxInv_step {seen : List CurrencyRate} {e : Extremes} (r : CurrencyRate)
    (hr : r.Rate ≠ Float64.nan) (h : MaxInv seen e) : MaxInv (seen ++ [r]) (extremesStep e r) := by
  obtain ⟨pre, m, suf, hseen, hm, hrate, hcur, hdate, hpre, hsuf⟩ := h
  cases hgt : Float64.gt r.Rate e.maxRate with
  | true =>
    obtain ⟨h1, h2, h3⟩ := (extremesStep_max e r).1 hgt
    have hlt : Float64.lt m.Rate r.Rate = true := by
      rw [← hrate]
      exact hgt
    refine ⟨seen, r, [], by simp, hr, h1, h2, h3, ?_, by simp⟩
    intro x hx
    rw [hseen, List.mem_append, List.mem_cons] at hx
    rcases hx with hx | rfl | hx
    · exact Float64.lt_of_ge_of_lt (Float64.ge_of_lt (hpre x hx)) hlt
    · exact hlt
    · exact Float64.lt_of_ge_of_lt (hsuf x hx) hlt
  | false =>
    obtain ⟨h1, h2, h3⟩ := (extremesStep_max e r).2 hgt
    refine ⟨pre, m, suf ++ [r], by simp [hseen], hm, by rw [h1, hrate], by rw [h2, hcur],
      by rw [h3, hdate], hpre, ?_⟩
    intro x hx
    rw [List.mem_append, List.mem_singleton] at hx
    rcases hx with hx | rfl
    · exact hsuf x hx
    · apply Float64.ge_of_not_lt hm hr
      rw [← hrate]
      exact hgt

theorem MinInv_step {seen : List CurrencyRate} {e : Extremes} (r : CurrencyRate)
    (hr : r.Rate ≠ Float64.nan) (h : MinInv seen e) : MinInv (seen ++ [r]) (extremesStep e r) := by
  obtain ⟨pre, m, suf, hseen, hm, hrate, hcur, hdate, hpre, hsuf⟩ := h
  cases hlt : Float64.lt r.Rate e.minRate with
  | true =>
    obtain ⟨h1, h2, h3⟩ := (extremesStep_min e r).1 hlt
    have hlt' : Float64.lt r.Rate m.Rate = true := by
      rw [← hrate]
      exact hlt
    refine ⟨seen, r, [], by simp, hr, h1, h2, h3, ?_, by simp⟩
    intro x hx
    rw [hseen, List.mem_append, List.mem_cons] at hx
    rcases hx with hx | rfl | hx
    · exact Float64.lt_of_lt_of_ge hlt' (Float64.ge_of_lt (hpre x hx))
    · exact hlt'
    · exact Float64.lt_of_lt_of_ge hlt' (hsuf x hx)
  | false =>
    obtain ⟨h1, h2, h3⟩ := (extremesStep_min e r).2 hlt
    refine ⟨pre, m, suf ++ [r], by simp [hseen], hm, by rw [h1, hrate], by rw [h2, hcur],
      by rw [h3, hdate], hpre, ?_⟩
    intro x hx
    rw [List.mem_append, List.mem_singleton] at hx
    rcases hx with hx | rfl
    · exact hsuf x hx
    · apply Float64.ge_of_not_lt hr hm
      rw [← hrate]
      exact hlt

theorem foldl_extremesStep_inv : ∀ (rest seen : List CurrencyRate) (e : Extremes),
    (∀ r ∈ rest, r.Rate ≠ Float64.nan) → MaxInv seen e → MinInv seen e →
    MaxInv (seen ++ rest) (rest.foldl extremesStep e) ∧
      MinInv (seen ++ rest) (rest.foldl extremesStep e) := by
  intro rest
  induction rest with
  | nil =>
    intro seen e _ hmax hmin
    simpa using ⟨hmax, hmin⟩
  | cons r rest ih =>
    intro seen e hnan hmax hmin
    have hr := hnan r (List.mem_cons_self _ _)
    have := ih (seen ++ [r]) (extremesStep e r)
      (fun x hx => hnan x (List.mem_cons_of_mem _ hx)) (MaxInv_step r hr hmax)
      (MinInv_step r hr hmin)
    simpa using this

theorem extremesStep_first (first : CurrencyRate) :
    extremesStep
        ⟨first.Rate, first.Rate, first.Currency, first.Currency, first.Date, first.Date⟩ first =
      ⟨first.Rate, first.Rate, first.Currency, first.Currency, first.Date, first.Date⟩ := by
  unfold extremesStep
  simp [Float64.gt, Float64.lt_irrefl]

/-- C15 (rate extraction).  The conversion loop of `fetchRatesForDate` returns, in
document order, exactly one record for each `Valute` entry whose trimmed `Nominal`
parses as an integer other than zero and whose trimmed `Value`, first comma
replaced by a dot, parses as a number; the record holds `Value / Nominal`, the
name of the entry and the `Date` of the document.  Every other entry is
skipped.  This holds whatever `ParseFloat`, `/` and `float64(n)` compute. -/
theorem fetchRatesLoop_eq_spec (ops : Float64Ops) (data : ValCurs) :
    fetchRatesLoop ops data = ratesSpec ops data ∧
    (∀ v, Qualifies ops v = true ↔
      ∃ n x, Atoi (TrimSpace v.Nominal) = some n ∧ n ≠ 0 ∧
        ops.ParseFloat (commaToDot (TrimSpace v.Value)) = some x) ∧
    (∀ v n x, Atoi (TrimSpace v.Nominal) = some n →
      ops.ParseFloat (commaToDot (TrimSpace v.Value)) = some x →
      rateOf ops data.Date v = ⟨ops.div x (ops.ofInt n), v.Name, data.Date⟩) := by
  refine ⟨?_, ?_, ?_⟩
  · unfold fetchRatesLoop ratesSpec
    rw [foldl_convertStep]
    simp
  · intro v
    unfold Qualifies
    cases hN : Atoi (TrimSpace v.Nominal) with
    | none => simp
    | some n =>
      cases hV : ops.ParseFloat (commaToDot (TrimSpace v.Value)) with
      | none => simp
      | some x => simp
  · intro v n x hN hV
    unfold rateOf
    rw [hN, hV]
    rfl

/-- C15 on the document of `TestFetchRatesForDate`, with two entries added that the
loop skips: whatever the float operations are, the two rates of the test come
out in order, with the names of the entries and the date of the document. -/
theorem fetchRatesLoop_sample (ops : Float64Ops) (x1 x2 : Float64)
    (h1 : ops.ParseFloat "52.5385" = some x1) (h2 : ops.ParseFloat "49.5749" = some x2) :
    fetchRatesLoop ops ⟨"05.04.2025",
        [⟨"1", "Australian Dollar", "52,5385"⟩, ⟨"0", "Zero", "1,5"⟩, ⟨"ten", "Word", "1,5"⟩,
          ⟨" 1 ", "Azerbaijan Manat", " 49,5749\n"⟩]⟩ =
      [⟨ops.div x1 (ops.ofInt 1), "Australian Dollar", "05.04.2025"⟩,
        ⟨ops.div x2 (ops.ofInt 1), "Azerbaijan Manat", "05.04.2025"⟩] := by
  have e1 : commaToDot (TrimSpace "52,5385") = "52.5385" := by decide
  have e2 : commaToDot (TrimSpace " 49,5749\n") = "49.5749" := by decide
  have a1 : Atoi (TrimSpace "1") = some 1 := by decide
  have a2 : Atoi (TrimSpace "0") = some 0 := by decide
  have a3 : Atoi (TrimSpace "ten") = none := by decide
  have a4 : Atoi (TrimSpace " 1 ") = some 1 := by decide
  simp [fetchRatesLoop, convertStep, e1, e2, a1, a2, a3, a4, h1, h2]

/-- C16, as stated, fails for a list with a `NaN` rate: every comparison with `NaN`
is false, so a `NaN` in first place is never replaced and is reported as both
maximum and minimum, and a `NaN` further on is never looked at; in both cases
`maxRate >= r.Rate` and `minRate <= r.Rate` are false for a record of the list. -/
theorem extremes_nan_counterexample :
    extremes [⟨Float64.nan, "A", "01.01.2025"⟩, ⟨Float64.num 1, "B", "02.01.2025"⟩] =
      some ⟨Float64.nan, Float64.nan, "A", "A", "01.01.2025", "01.01.2025"⟩ ∧
    Float64.ge Float64.nan (Float64.num 1) = false ∧
    Float64.le Float64.nan (Float64.num 1) = false ∧
    extremes [⟨Float64.num 1, "B", "02.01.2025"⟩, ⟨Float64.nan, "A", "01.01.2025"⟩] =
      some ⟨Float64.num 1, Float64.num 1, "B", "B", "02.01.2025", "02.01.2025"⟩ ∧
    Float64.ge (Float64.num 1) Float64.nan = false ∧
    Float64.le (Float64.num 1) Float64.nan = false := by
  decide

/-- C16, amended: for every non-empty list of records none of whose rates is `NaN`,
the aggregation loop yields a `maxRate` that is `>=` and a `minRate` that is `<=`
the rate of every record; the maximum (resp. minimum) with its currency and date
is taken from the first record of the list that attains it; and the average is
the sum of the rates, added in list order starting from 0, divided by the
number of records. -/
theorem extremes_without_nan (ops : Float64Ops) (allRates : List CurrencyRate)
    (hne : allRates ≠ []) (hnan : ∀ r ∈ allRates, r.Rate ≠ Float64.nan) :
    ∃ e, extremes allRates = some e ∧
      (∀ r ∈ allRates, Float64.ge e.maxRate r.Rate = true ∧ Float64.le e.minRate r.Rate = true) ∧
      (∃ r, FirstAt allRates r ∧ Float64.eq r.Rate e.maxRate = true ∧ e.maxRate = r.Rate ∧
        e.maxCurrency = r.Currency ∧ e.maxDate = r.Date) ∧
      (∃ r, FirstAt allRates r ∧ Float64.eq r.Rate e.minRate = true ∧ e.minRate = r.Rate ∧
        e.minCurrency = r.Currency ∧ e.minDate = r.Date) ∧
      average ops allRates =
        some (ops.div (allRates.foldl (fun sum r => ops.add sum r.Rate) (Float64.num 0))
          (ops.ofInt (allRates.length : Int))) := by
  obtain ⟨first, rest, rfl⟩ := List.exists_cons_of_ne_nil hne
  have hfirst := hnan first (List.mem_cons_self _ _)
  have hinv := foldl_extremesStep_inv rest [first]
    ⟨first.Rate, first.Rate, first.Currency, first.Currency, first.Date, first.Date⟩
    (fun r hr => hnan r (List.mem_cons_of_mem _ hr))
    ⟨[], first, [], rfl, hfirst, rfl, rfl, rfl, by simp, by simp⟩
    ⟨[], first, [], rfl, hfirst, rfl, rfl, rfl, by simp, by simp⟩
  have hext : extremes (first :: rest) = some (rest.foldl extremesStep
      ⟨first.Rate, first.Rate, first.Currency, first.Currency, first.Date, first.Date⟩) := by
    rw [extremes, List.foldl_cons, extremesStep_first]
  have heqrefl : ∀ a : Float64, a ≠ Float64.nan → Float64.eq a a = true := by
    intro a ha
    cases a with
    | nan => exact absurd rfl ha
    | num x => simp [Float64.eq]
  obtain ⟨⟨p, m, s, hl, hm, hrate, hcur, hdate, hpre, hsuf⟩,
    ⟨p', m', s', hl', hm', hrate', hcur', hdate', hpre', hsuf'⟩⟩ := hinv
  simp only [List.singleton_append] at hl hl'
  refine ⟨_, hext, ?_, ?_, ?_, rfl⟩
  · intro r hr
    constructor
    · rw [hrate]
      rw [hl, List.mem_append, List.mem_cons] at hr
      rcases hr with hr | rfl | hr
      · exact Float64.ge_of_lt (hpre r hr)
      · exact Float64.ge_refl hm
      · exact hsuf r hr
    · rw [hrate']
      unfold Float64.le
      rw [hl', List.mem_append, List.mem_cons] at hr
      rcases hr with hr | rfl | hr
      · exact Float64.ge_of_lt (hpre' r hr)
      · exact Float64.ge_refl hm'
      · exact hsuf' r hr
  · refine ⟨m, ⟨p, s, hl, fun x hx => Float64.eq_false_of_lt (hpre x hx)⟩, ?_, hrate, hcur, hdate⟩
    rw [hrate]
    exact heqrefl _ hm
  · refine ⟨m', ⟨p', s', hl', ?_⟩, ?_, hrate', hcur', hdate'⟩
    · intro x hx
      have h := Float64.eq_false_of_lt (hpre' x hx)
      cases hxr : x.Rate <;> cases hmr : m'.Rate <;> simp_all [Float64.eq]
      exact fun heq => h heq.symm
    · rw [hrate']
      exact heqrefl _ hm'

theorem extremes_without_nan_witness :
    ([⟨Float64.num 50, "CurrencyA", "01.01.2025"⟩, ⟨Float64.num 60, "CurrencyB", "02.01.2025"⟩,
      ⟨Float64.num 55, "CurrencyC", "03.01.2025"⟩] : List CurrencyRate) ≠ [] ∧
    extremes [⟨Float64.num 50, "CurrencyA", "01.01.2025"⟩,
        ⟨Float64.num 60, "CurrencyB", "02.01.2025"⟩, ⟨Float64.num 55, "CurrencyC", "03.01.2025"⟩] =
      some ⟨Float64.num 60, Float64.num 50, "CurrencyB", "CurrencyA", "02.01.2025",
        "01.01.2025"⟩ ∧
    ∀ ops : Float64Ops, ∃ e,
      extremes [⟨Float64.num 50, "CurrencyA", "01.01.2025"⟩,
        ⟨Float64.num 60, "CurrencyB", "02.01.2025"⟩,
        ⟨Float64.num 55, "CurrencyC", "03.01.2025"⟩] = some e ∧
      average ops [⟨Float64.num 50, "CurrencyA", "01.01.2025"⟩,
        ⟨Float64.num 60, "CurrencyB", "02.01.2025"⟩,
        ⟨Float64.num 55, "CurrencyC", "03.01.2025"⟩] =
        some (ops.div
          (ops.add (ops.add (ops.add (Float64.num 0) (Float64.num 50)) (Float64.num 60))
            (Float64.num 55))
          (ops.ofInt 3)) :=
  ⟨by decide, by decide, fun ops =>
    let ⟨e, he, _, _, _, havg⟩ := extremes_without_nan ops
      [⟨Float64.num 50, "CurrencyA", "01.01.2025"⟩, ⟨Float64.num 60, "CurrencyB", "02.01.2025"⟩,
        ⟨Float64.num 55, "CurrencyC", "03.01.2025"⟩] (by decide) (by decide)
    ⟨e, he, havg⟩⟩

end TaskThird
